import Mathlib

/-!
Verification development for the myopia_reader PDF-processing core
(`src/pdf_processor.py`).  The Python functions are shallowly embedded as
executable Lean functions over `String` / `List Char`:

* `clean_extracted_text`  — the text normalizer (`PDFProcessor.clean_extracted_text`);
* `detect_chapters`       — the chapter segmenter (`PDFProcessor.detect_chapters`);
* `extract_text`          — the extraction orchestrator (`PDFProcessor.extract_text`),
  with the per-backend libraries abstracted as an oracle and the adapter
  post-processing (`text.strip() if text.strip() else None`) embedded as `adapt`;
* `chapterFilePath` / `save_chapter_files` — the layout writer
  (`PDFProcessor.save_chapter_files` together with `create_chapter_folders`),
  with filesystem write success abstracted as an oracle;
* `process_pdf`           — the orchestration entry point (`PDFProcessor.process_pdf`).

Whitespace is modelled by `Char.isWhitespace` (covering space, tab, CR, LF) and
digits / word characters by the ASCII classes, which is the fragment the
regular expressions of the source exercise on the inputs of interest.
-/

/-- Python `str.strip()` on the trailing side: drop trailing whitespace. -/
def dropTrail (l : List Char) : List Char :=
  (l.reverse.dropWhile Char.isWhitespace).reverse

/-- Python `str.strip()`: drop leading and trailing whitespace characters. -/
def stripChars (l : List Char) : List Char :=
  dropTrail (l.dropWhile Char.isWhitespace)

/-- Python `text.split('\n')`: split a character list at newline characters.
Mirrors Python semantics: the empty string yields `[[]]` (Python `['']`). -/
def splitNlL : List Char → List (List Char)
  | [] => [[]]
  | c :: rest =>
    if c = '\n' then [] :: splitNlL rest
    else
      match splitNlL rest with
      | [] => [[c]]
      | l :: ls => (c :: l) :: ls

/-- Python `'\n'.join(lines)`: join character lists with single newlines. -/
def joinNlL : List (List Char) → List Char
  | [] => []
  | [l] => l
  | l :: m :: ls => l ++ '\n' :: joinNlL (m :: ls)

/-- Python `'\n\n' in s`: two consecutive newline characters occur. -/
def occursNN : List Char → Bool
  | [] => false
  | [_] => false
  | a :: b :: rest => (a = '\n' && b = '\n') || occursNN (b :: rest)

/-- Python `'\n\n\n' in s`: three consecutive newline characters occur. -/
def occursNNN : List Char → Bool
  | [] => false
  | [_] => false
  | [_, _] => false
  | a :: b :: c :: rest => (a = '\n' && b = '\n' && c = '\n') || occursNNN (b :: c :: rest)

/-- Python `s.replace('\n\n\n', '\n\n')`: replace every non-overlapping
occurrence (scanning left to right) of three newlines by two. -/
def replNNN : List Char → List Char
  | a :: b :: c :: rest =>
    if a = '\n' ∧ b = '\n' ∧ c = '\n' then '\n' :: '\n' :: replNNN rest
    else a :: replNNN (b :: c :: rest)
  | s => s

theorem replNNN_length_le (s : List Char) : (replNNN s).length ≤ s.length := by
  match s with
  | [] => simp [replNNN]
  | [a] => simp [replNNN]
  | [a, b] => simp [replNNN]
  | a :: b :: c :: rest =>
    by_cases h : a = '\n' ∧ b = '\n' ∧ c = '\n'
    · have ih := replNNN_length_le rest
      simp only [replNNN, if_pos h, List.length_cons]
      omega
    · have ih := replNNN_length_le (b :: c :: rest)
      simp only [List.length_cons] at ih
      simp only [replNNN, if_neg h, List.length_cons]
      omega

theorem replNNN_length_lt (s : List Char) (h : occursNNN s = true) :
    (replNNN s).length < s.length := by
  match s with
  | [] => simp [occursNNN] at h
  | [a] => simp [occursNNN] at h
  | [a, b] => simp [occursNNN] at h
  | a :: b :: c :: rest =>
    by_cases hh : a = '\n' ∧ b = '\n' ∧ c = '\n'
    · have ih := replNNN_length_le rest
      simp only [replNNN, if_pos hh, List.length_cons]
      omega
    · have hocc : occursNNN (b :: c :: rest) = true := by
        simp only [occursNNN, Bool.or_eq_true, Bool.and_eq_true, decide_eq_true_eq] at h
        rcases h with ⟨⟨h1, h2⟩, h3⟩ | h
        · exact absurd ⟨h1, h2, h3⟩ hh
        · exact h
      have ih := replNNN_length_lt (b :: c :: rest) hocc
      simp only [List.length_cons] at ih
      simp only [replNNN, if_neg hh, List.length_cons]
      omega

/-- Fuel-indexed iteration of the replacement step; each firing iteration
strictly shortens the text (`replNNN_length_lt`), so `s.length` units of fuel
always reach the fixed point. -/
def collapseFuel : Nat → List Char → List Char
  | 0, s => s
  | fuel + 1, s => if occursNNN s then collapseFuel fuel (replNNN s) else s

/-- Python `while '\n\n\n' in s: s = s.replace('\n\n\n', '\n\n')`.  The loop
equation is proved as `collapseNNN_eq`. -/
def collapseNNN (s : List Char) : List Char :=
  collapseFuel s.length s

theorem collapseFuel_nil (f : Nat) : collapseFuel f [] = [] := by
  cases f with
  | zero => rfl
  | succ f => simp [collapseFuel, occursNNN]

theorem collapseFuel_congr (f1 : Nat) :
    ∀ (f2 : Nat) (s : List Char), s.length ≤ f1 → s.length ≤ f2 →
      collapseFuel f1 s = collapseFuel f2 s := by
  induction f1 with
  | zero =>
    intro f2 s h1 _
    have : s = [] := List.length_eq_zero.mp (Nat.le_zero.mp h1)
    subst this
    rw [collapseFuel_nil, collapseFuel_nil]
  | succ f1 ih =>
    intro f2 s h1 h2
    cases f2 with
    | zero =>
      have : s = [] := List.length_eq_zero.mp (Nat.le_zero.mp h2)
      subst this
      rw [collapseFuel_nil, collapseFuel_nil]
    | succ f2 =>
      simp only [collapseFuel]
      by_cases hc : occursNNN s = true
      · simp only [hc, if_true]
        have hlt := replNNN_length_lt s hc
        exact ih f2 (replNNN s) (by omega) (by omega)
      · simp [hc]

/-- The while loop satisfies its own unfolding: test, replace, repeat. -/
theorem collapseNNN_eq (s : List Char) :
    collapseNNN s = if occursNNN s = true then collapseNNN (replNNN s) else s := by
  by_cases hc : occursNNN s = true
  · have hlt := replNNN_length_lt s hc
    have hlen : s.length = (s.length - 1) + 1 := by omega
    simp only [collapseNNN, hc, if_true]
    rw [hlen]
    simp only [collapseFuel, hc, if_true]
    exact collapseFuel_congr _ _ _ (by omega) (by omega)
  · simp only [collapseNNN, hc, if_false]
    cases hs : s.length with
    | zero =>
      have : s = [] := List.length_eq_zero.mp hs
      subst this
      exact collapseFuel_nil _
    | succ f => simp [collapseFuel, hc]

/-- The stripped nonempty lines of a text, as computed by the loop in
`PDFProcessor.clean_extracted_text`. -/
def cleanLines (s : List Char) : List (List Char) :=
  ((splitNlL s).map stripChars).filter (fun l => !(l == []))

/-- Model of `PDFProcessor.clean_extracted_text`: strip each line, drop lines
that become empty, rejoin with single newlines, then collapse runs of three or
more newlines down to two until none remains. -/
def clean_extracted_text (text : String) : String :=
  if text = "" then ""
  else ⟨collapseNNN (joinNlL (cleanLines text.data))⟩

/-- Python `int(digits)` on a nonempty string of decimal digit characters. -/
def digitsToNat (ds : List Char) : Nat :=
  ds.foldl (fun a c => a * 10 + (c.toNat - 48)) 0

/-- Model of the regular expression `^CHAPTER\s+(\d+)$` applied by `re.match`
to an already stripped line: the literal token `CHAPTER`, one or more
whitespace characters, then one or more digits, and nothing else.  Returns the
parsed chapter number. -/
def parseMarker : List Char → Option Nat
  | c1 :: c2 :: c3 :: c4 :: c5 :: c6 :: c7 :: w :: rest2 =>
    if c1 = 'C' ∧ c2 = 'H' ∧ c3 = 'A' ∧ c4 = 'P' ∧ c5 = 'T' ∧ c6 = 'E' ∧ c7 = 'R'
        ∧ w.isWhitespace then
      let rest3 := rest2.dropWhile Char.isWhitespace
      let ds := rest3.takeWhile Char.isDigit
      let rest4 := rest3.dropWhile Char.isDigit
      if ds ≠ [] ∧ rest4 = [] then some (digitsToNat ds) else none
    else none
  | _ => none

/-- First pass of `PDFProcessor.detect_chapters`: scan the lines (with `k` the
index of the first one), recording `(line index, parsed chapter number)` for
every line whose stripped content matches the chapter marker pattern. -/
def markersFrom (k : Nat) : List (List Char) → List (Nat × Nat)
  | [] => []
  | l :: ls =>
    match parseMarker (stripChars l) with
    | some n => (k, n) :: markersFrom (k + 1) ls
    | none => markersFrom (k + 1) ls

/-- A chapter segment as produced by `PDFProcessor.detect_chapters`:
`(chapter_name, chapter_index, chapter_content)`. -/
structure Segment where
  label : String
  ordinal : Int
  content : String
deriving Repr, DecidableEq

/-- End line of the current chapter: the start of the next marker when one
follows, the end of the document otherwise. -/
def nextEnd (rest : List (Nat × Nat)) (len : Nat) : Nat :=
  match rest with
  | [] => len
  | (s', _) :: _ => s'

/-- Second pass of `PDFProcessor.detect_chapters`: for each marker, the
segment spans from the marker line up to the line before the next marker (or
the end of the document); the joined content is stripped and dropped when
empty; the label is `"Chapter {n}"` and the ordinal `n - 1`. -/
def buildChapters (lines : List (List Char)) : List (Nat × Nat) → List Segment
  | [] => []
  | (s, n) :: rest =>
    let e := nextEnd rest lines.length
    let content := stripChars (joinNlL ((lines.drop s).take (e - s)))
    (if content = [] then []
     else [⟨"Chapter " ++ toString n, (n : Int) - 1, ⟨content⟩⟩])
      ++ buildChapters lines rest

/-- Model of `PDFProcessor.detect_chapters`.  With no marker the whole
stripped text becomes a single `"Introduction"` segment (none at all when it
strips to empty); otherwise an `"Introduction"` segment covers the lines before
the first marker when that span is nonempty, followed by the chapter
segments. -/
def detect_chapters (text : String) : List Segment :=
  if text = "" then []
  else
    match markersFrom 0 (splitNlL text.data) with
    | [] =>
      if stripChars text.data = [] then []
      else [⟨"Introduction", -1, ⟨stripChars text.data⟩⟩]
    | (p, n) :: rest =>
      (if 0 < p then
        (if stripChars (joinNlL ((splitNlL text.data).take p)) = [] then []
         else [⟨"Introduction", -1, ⟨stripChars (joinNlL ((splitNlL text.data).take p))⟩⟩])
       else [])
      ++ buildChapters (splitNlL text.data) ((p, n) :: rest)

/-- The contents of a list of segments, as character lists. -/
def segContents (segs : List Segment) : List (List Char) :=
  segs.map (fun s => s.content.data)

/-- Python `\w` on the ASCII fragment: letter, digit or underscore. -/
def isWordChar (c : Char) : Bool :=
  c.isAlphanum || c = '_'

/-- Characters kept by `re.sub(r'[^\w\s-]', '', name)`: word characters,
whitespace and hyphen. -/
def keepChar (c : Char) : Bool :=
  isWordChar c || c.isWhitespace || c = '-'

/-- ASCII model of Python `str.lower()` on a single character. -/
def lowerChar (c : Char) : Char :=
  if 'A' ≤ c ∧ c ≤ 'Z' then Char.ofNat (c.toNat + 32) else c

/-- State machine for `re.sub(r'\s+', '_', s)`: the flag records whether the
previous character was whitespace (i.e. whether the current run has already
emitted its underscore). -/
def wsRunsAux : Bool → List Char → List Char
  | _, [] => []
  | prevWs, c :: rest =>
    if c.isWhitespace then
      (if prevWs then [] else ['_']) ++ wsRunsAux true rest
    else c :: wsRunsAux false rest

/-- Python `re.sub(r'\s+', '_', s)`: replace each maximal run of whitespace
characters by a single underscore (unfolding equation: `wsRuns_cons`). -/
def wsRuns (l : List Char) : List Char :=
  wsRunsAux false l

theorem wsRunsAux_true_eq (rest : List Char) :
    wsRunsAux true rest = wsRunsAux false (rest.dropWhile Char.isWhitespace) := by
  induction rest with
  | nil => rfl
  | cons c rest ih =>
    by_cases hc : c.isWhitespace
    · simp [wsRunsAux, hc, ih]
    · simp [wsRunsAux, hc]

/-- Each maximal whitespace run becomes a single underscore. -/
theorem wsRuns_cons (c : Char) (rest : List Char) :
    wsRuns (c :: rest) =
      if c.isWhitespace then '_' :: wsRuns (rest.dropWhile Char.isWhitespace)
      else c :: wsRuns rest := by
  by_cases hc : c.isWhitespace
  · simp [wsRuns, wsRunsAux, hc, wsRunsAux_true_eq]
  · simp [wsRuns, wsRunsAux, hc]

/-- The filename slug of `PDFProcessor.save_chapter_files`:
`re.sub(r'[^\w\s-]', '', name).strip()` then `re.sub(r'\s+', '_', ...).lower()`. -/
def slugify (name : List Char) : List Char :=
  (wsRuns (stripChars (name.filter keepChar))).map lowerChar

/-- Python `f"{m:02d}"` for the values used by the layout writer. -/
def pad2 (i : Int) : String :=
  if 0 ≤ i ∧ i < 10 then "0" ++ toString i else toString i

/-- Target file path for one segment, combining `create_chapter_folders`
(`baseDir/documentName`, with an `intro` subfolder) and the per-segment path
choice of `save_chapter_files`: ordinal `-1` goes to `intro/introduction.txt`,
any other ordinal `k` to folder `{k+1:02d}` under the document folder, with
the slug of the label as filename. -/
def chapterFilePath (baseDir docName : String) (seg : Segment) : String :=
  if seg.ordinal = -1 then
    baseDir ++ "/" ++ docName ++ "/intro/introduction.txt"
  else
    baseDir ++ "/" ++ docName ++ "/" ++ pad2 (seg.ordinal + 1) ++ "/"
      ++ String.mk (slugify seg.label.data) ++ ".txt"

/-- Model of `PDFProcessor.save_chapter_files`.  The filesystem is abstracted
by the oracle `ω`: `ω p = true` means writing at path `p` succeeds.  Each
segment is attempted in turn; a failed write (or a raised error, absorbed by
the per-segment `try`) only skips that segment's path. -/
def save_chapter_files (ω : String → Bool) (baseDir docName : String) :
    List Segment → List String
  | [] => []
  | seg :: rest =>
    let p := chapterFilePath baseDir docName seg
    (if ω p then [p] else []) ++ save_chapter_files ω baseDir docName rest

/-- The fixed backend preference order of `PDFProcessor.extract_text`
(the insertion order of its `methods` dictionary). -/
def methodOrder : List String :=
  ["pymupdf", "pdfplumber", "pypdf2"]

/-- Python truthiness of an `Optional[str]`: `None` and `""` are falsy. -/
def truthy : Option String → Bool
  | some s => !(s == "")
  | none => false

/-- The fallback loop of `PDFProcessor.extract_text` over a list of backend
names: invoke each in turn, stop at the first truthy result.  The second
component records which backends were invoked, in order. -/
def runMethods (f : String → Option String) : List String → Option String × List String
  | [] => (none, [])
  | m :: rest =>
    let r := f m
    if truthy r then (r, [m])
    else
      let p := runMethods f rest
      (p.1, m :: p.2)

/-- The order in which `PDFProcessor.extract_text` attempts backends: a
recognised preferred method first, then the fixed order skipping the
preferred name. -/
def attemptOrder (pref : String) : List String :=
  (if methodOrder.contains pref then [pref] else [])
    ++ methodOrder.filter (fun m => m != pref)

/-- Model of `PDFProcessor.extract_text`: after validation, run the fallback
chain over the attempt order.  Backend behaviour is the oracle `f`; the second
component of the result records the invoked backends. -/
def extract_text (validOk : Bool) (f : String → Option String) (pref : String) :
    Option String × List String :=
  if validOk then runMethods f (attemptOrder pref) else (none, [])

/-- Adapter post-processing shared by `extract_text_pymupdf`,
`extract_text_pdfplumber` and `extract_text_pypdf2`:
`return text.strip() if text.strip() else None`, with `none` also standing
for an encrypted document or a raised library error. -/
def adapt : Option String → Option String
  | none => none
  | some t => if stripChars t.data = [] then none else some ⟨stripChars t.data⟩

/-- Result record of `PDFProcessor.process_pdf` (the fields the claims are
about; the best-effort metadata dictionary is not modelled). -/
structure ProcessResult where
  success : Bool
  text : Option String
  chapters : List (String × Int × Nat)
  saved_files : List String
  error : Option String
  output_folder : Option String
deriving Repr, DecidableEq

/-- Model of `PDFProcessor.process_pdf`.  `raw` gives each backend's raw
extraction output, `validOk` the result of `validate_pdf_file`, and `ω` the
filesystem write oracle.  The second component of the result lists the file
paths whose write was attempted (each `save_to_file` invocation). -/
def process_pdf (validOk : Bool) (raw : String → Option String) (ω : String → Bool)
    (outputDir pdfName : String) (cleanText saveToOutput splitChapters : Bool) :
    ProcessResult × List String :=
  match (extract_text validOk (fun m => adapt (raw m)) "auto").1 with
  | none =>
    ({ success := false, text := none, chapters := [], saved_files := [],
       error := some "Text extraction failed", output_folder := none }, [])
  | some rawText =>
    let txt := if cleanText then clean_extracted_text rawText else rawText
    if saveToOutput ∧ txt ≠ "" then
      if splitChapters then
        let chs := detect_chapters txt
        if chs ≠ [] then
          ({ success := true, text := some txt,
             chapters := chs.map (fun s => (s.label, s.ordinal, s.content.length)),
             saved_files := save_chapter_files ω outputDir pdfName chs,
             error := none, output_folder := some (outputDir ++ "/" ++ pdfName) },
           chs.map (chapterFilePath outputDir pdfName))
        else
          ({ success := true, text := some txt, chapters := [],
             saved_files :=
               if ω (outputDir ++ "/" ++ pdfName ++ "/intro/full_text.txt") then
                 [outputDir ++ "/" ++ pdfName ++ "/intro/full_text.txt"]
               else [],
             error := none, output_folder := some (outputDir ++ "/" ++ pdfName) },
           [outputDir ++ "/" ++ pdfName ++ "/intro/full_text.txt"])
      else
        ({ success := true, text := some txt, chapters := [],
           saved_files :=
             if ω (outputDir ++ "/" ++ pdfName ++ "_extracted.txt") then
               [outputDir ++ "/" ++ pdfName ++ "_extracted.txt"]
             else [],
           error := none, output_folder := none },
         [outputDir ++ "/" ++ pdfName ++ "_extracted.txt"])
    else
      ({ success := true, text := some txt, chapters := [], saved_files := [],
         error := none, output_folder := none }, [])

theorem head?_append_ne_nil {α : Type} (l1 l2 : List α) (h : l1 ≠ []) :
    (l1 ++ l2).head? = l1.head? := by
  cases l1 with
  | nil => exact absurd rfl h
  | cons a t => simp

theorem stripChars_eq_rdrop (l : List Char) :
    stripChars l = (l.dropWhile Char.isWhitespace).rdropWhile Char.isWhitespace := rfl

theorem stripChars_subset (l : List Char) : stripChars l ⊆ l := by
  intro c hc
  rw [stripChars_eq_rdrop] at hc
  have hp := List.rdropWhile_prefix Char.isWhitespace (l.dropWhile Char.isWhitespace)
  have h1 := hp.subset hc
  exact (List.dropWhile_sublist Char.isWhitespace).subset h1

theorem stripChars_eq_nil_iff (l : List Char) :
    stripChars l = [] ↔ ∀ c ∈ l, c.isWhitespace = true := by
  rw [stripChars_eq_rdrop, List.rdropWhile_eq_nil_iff]
  constructor
  · intro h c hc
    have hsplit := List.takeWhile_append_dropWhile (p := Char.isWhitespace) (l := l)
    rw [← hsplit] at hc
    rcases List.mem_append.mp hc with h1 | h1
    · have := List.all_takeWhile (l := l) (p := Char.isWhitespace)
      exact List.all_eq_true.mp this c h1
    · exact h c h1
  · intro h c hc
    exact h c ((List.dropWhile_sublist Char.isWhitespace).subset hc)

theorem head_not_ws_of_stripChars (l : List Char) :
    ∀ c ∈ (stripChars l).head?, c.isWhitespace = false := by
  intro c hc
  rw [stripChars_eq_rdrop] at hc
  have hp := List.rdropWhile_prefix Char.isWhitespace (l.dropWhile Char.isWhitespace)
  rcases hp with ⟨t, ht⟩
  have hne : (l.dropWhile Char.isWhitespace).rdropWhile Char.isWhitespace ≠ [] := by
    intro h
    rw [h] at hc
    simp at hc
  have hne2 : l.dropWhile Char.isWhitespace ≠ [] := by
    intro h
    rw [h] at hne
    simp at hne
  have hh : (l.dropWhile Char.isWhitespace).head? = some c := by
    rw [← ht, head?_append_ne_nil _ _ hne]
    exact hc
  have hw := List.head_dropWhile_not Char.isWhitespace l hne2
  rw [List.head?_eq_head hne2] at hh
  simp only [Option.some.injEq] at hh
  rw [← hh]
  exact hw

theorem getLast_not_ws_of_stripChars (l : List Char) :
    ∀ c ∈ (stripChars l).getLast?, c.isWhitespace = false := by
  intro c hc
  rw [stripChars_eq_rdrop] at hc
  have hne : (l.dropWhile Char.isWhitespace).rdropWhile Char.isWhitespace ≠ [] := by
    intro h
    rw [h] at hc
    simp at hc
  have hw := List.rdropWhile_last_not Char.isWhitespace (l.dropWhile Char.isWhitespace) hne
  rw [List.getLast?_eq_getLast _ hne] at hc
  simp only [Option.mem_def, Option.some.injEq] at hc
  rw [← hc]
  simpa using hw

theorem stripChars_eq_self (l : List Char)
    (h1 : ∀ c ∈ l.head?, c.isWhitespace = false)
    (h2 : ∀ c ∈ l.getLast?, c.isWhitespace = false) :
    stripChars l = l := by
  have hd : l.dropWhile Char.isWhitespace = l := by
    rw [List.dropWhile_eq_self_iff]
    intro hl
    have : l.head? = some (l.get ⟨0, hl⟩) := by
      cases l with
      | nil => simp at hl
      | cons a t => simp
    have := h1 _ (by rw [this]; rfl)
    simp only [Bool.not_eq_true]
    exact this
  rw [stripChars_eq_rdrop, hd, List.rdropWhile_eq_self_iff]
  intro hl
  have : l.getLast? = some (l.getLast hl) := List.getLast?_eq_getLast l hl
  have := h2 _ (by rw [this]; rfl)
  simp [this]

theorem stripChars_idem (l : List Char) :
    stripChars (stripChars l) = stripChars l :=
  stripChars_eq_self _ (head_not_ws_of_stripChars l) (getLast_not_ws_of_stripChars l)

theorem stripChars_ne_nil (l : List Char) (c : Char) (hc : c ∈ l)
    (hw : c.isWhitespace = false) : stripChars l ≠ [] := by
  intro h
  have := (stripChars_eq_nil_iff l).mp h c hc
  rw [this] at hw
  exact Bool.true_eq_false.mp hw

theorem splitNlL_ne_nil (s : List Char) : splitNlL s ≠ [] := by
  cases s with
  | nil => simp [splitNlL]
  | cons c rest =>
    by_cases hc : c = '\n'
    · simp [splitNlL, hc]
    · simp only [splitNlL, if_neg hc]
      rcases splitNlL rest with _ | ⟨l, ls⟩ <;> simp

theorem joinNlL_splitNlL (s : List Char) : joinNlL (splitNlL s) = s := by
  induction s with
  | nil => rfl
  | cons c rest ih =>
    by_cases hc : c = '\n'
    · subst hc
      simp only [splitNlL, if_pos rfl]
      rcases h : splitNlL rest with _ | ⟨l, ls⟩
      · exact absurd h (splitNlL_ne_nil rest)
      · rw [h] at ih
        simp [joinNlL, ih]
    · simp only [splitNlL, if_neg hc]
      rcases h : splitNlL rest with _ | ⟨l, ls⟩
      · exact absurd h (splitNlL_ne_nil rest)
      · rw [h] at ih
        rcases ls with _ | ⟨m, ls'⟩
        · simp only [joinNlL] at ih ⊢
          rw [ih]
        · simp only [joinNlL] at ih ⊢
          rw [List.cons_append, ih]

theorem no_nl_of_mem_splitNlL (s : List Char) :
    ∀ l ∈ splitNlL s, '\n' ∉ l := by
  induction s with
  | nil =>
    intro l hl
    simp only [splitNlL, List.mem_singleton] at hl
    simp [hl]
  | cons c rest ih =>
    intro l hl
    by_cases hc : c = '\n'
    · simp only [splitNlL, if_pos hc, List.mem_cons] at hl
      rcases hl with hl | hl
      · simp [hl]
      · exact ih l hl
    · simp only [splitNlL, if_neg hc] at hl
      rcases h : splitNlL rest with _ | ⟨m, ls⟩
      · exact absurd h (splitNlL_ne_nil rest)
      · rw [h] at hl
        simp only [List.mem_cons] at hl
        rcases hl with hl | hl
        · subst hl
          intro hmem
          rcases List.mem_cons.mp hmem with h1 | h1
          · exact hc h1.symm
          · exact ih m (h ▸ List.mem_cons_self m ls) h1
        · exact ih l (h ▸ List.mem_cons_of_mem m hl)

theorem splitNlL_no_nl (l : List Char) (h : '\n' ∉ l) : splitNlL l = [l] := by
  induction l with
  | nil => rfl
  | cons c rest ih =>
    have hc : c ≠ '\n' := fun hcc => h (hcc ▸ List.mem_cons_self c rest)
    have hr : '\n' ∉ rest := fun hh => h (List.mem_cons_of_mem c hh)
    simp only [splitNlL, if_neg hc, ih hr]

theorem splitNlL_append_nl (l t : List Char) (h : '\n' ∉ l) :
    splitNlL (l ++ '\n' :: t) = l :: splitNlL t := by
  induction l with
  | nil => simp [splitNlL]
  | cons c rest ih =>
    have hc : c ≠ '\n' := fun hcc => h (hcc ▸ List.mem_cons_self c rest)
    have hr : '\n' ∉ rest := fun hh => h (List.mem_cons_of_mem c hh)
    show splitNlL (c :: (rest ++ '\n' :: t)) = (c :: rest) :: splitNlL t
    simp only [splitNlL, if_neg hc, ih hr]

theorem splitNlL_joinNlL (ls : List (List Char)) (hne : ls ≠ [])
    (h : ∀ l ∈ ls, '\n' ∉ l) : splitNlL (joinNlL ls) = ls := by
  induction ls with
  | nil => exact absurd rfl hne
  | cons l rest ih =>
    rcases rest with _ | ⟨m, rest'⟩
    · simp only [joinNlL]
      exact splitNlL_no_nl l (h l (List.mem_cons_self l []))
    · simp only [joinNlL]
      rw [splitNlL_append_nl l _ (h l (List.mem_cons_self l _))]
      rw [ih (by simp) (fun x hx => h x (List.mem_cons_of_mem l hx))]

theorem joinNlL_ne_nil (l : List Char) (ls : List (List Char)) (h : l ≠ []) :
    joinNlL (l :: ls) ≠ [] := by
  rcases ls with _ | ⟨m, ls'⟩
  · simpa [joinNlL] using h
  · simp [joinNlL]

theorem joinNlL_head? (l : List Char) (ls : List (List Char)) (h : l ≠ []) :
    (joinNlL (l :: ls)).head? = l.head? := by
  rcases ls with _ | ⟨m, ls'⟩
  · rfl
  · simp only [joinNlL]
    exact head?_append_ne_nil _ _ h

theorem joinNlL_getLast? (ls : List (List Char)) (hne : ls ≠ [])
    (h : ∀ l ∈ ls, l ≠ []) :
    (joinNlL ls).getLast? = (ls.getLast hne).getLast? := by
  induction ls with
  | nil => exact absurd rfl hne
  | cons l rest ih =>
    rcases rest with _ | ⟨m, rest'⟩
    · simp [joinNlL]
    · have hrest : (m :: rest' : List (List Char)) ≠ [] := by simp
      have ihh := ih hrest (fun x hx => h x (List.mem_cons_of_mem l hx))
      have hjoin : joinNlL (m :: rest') ≠ [] :=
        joinNlL_ne_nil m rest' (h m (List.mem_cons_of_mem l (List.mem_cons_self m rest')))
      obtain ⟨x, hx⟩ : ∃ x, (joinNlL (m :: rest')).getLast? = some x :=
        ⟨_, List.getLast?_eq_getLast _ hjoin⟩
      have e1 : joinNlL (l :: m :: rest') = l ++ '\n' :: joinNlL (m :: rest') := rfl
      rw [e1, List.getLast?_append, List.getLast?_cons, hx]
      have e2 : (l :: m :: rest').getLast hne = (m :: rest').getLast hrest :=
        List.getLast_cons hrest
      rw [e2, ← ihh, hx]
      rfl

theorem joinNlL_append (A B : List (List Char)) (hA : A ≠ []) (hB : B ≠ []) :
    joinNlL (A ++ B) = joinNlL A ++ '\n' :: joinNlL B := by
  induction A with
  | nil => exact absurd rfl hA
  | cons l rest ih =>
    rcases rest with _ | ⟨m, rest'⟩
    · rcases B with _ | ⟨b, B'⟩
      · exact absurd rfl hB
      · simp [joinNlL]
    · have ihh := ih (by simp)
      have e1 : joinNlL (l :: m :: rest') = l ++ '\n' :: joinNlL (m :: rest') := rfl
      have e2 : (l :: m :: rest') ++ B = l :: ((m :: rest') ++ B) := rfl
      rw [e2]
      have e3 : joinNlL (l :: ((m :: rest') ++ B)) =
          l ++ '\n' :: joinNlL ((m :: rest') ++ B) := by
        rcases B with _ | ⟨b, B'⟩
        · exact absurd rfl hB
        · rfl
      rw [e3, ihh, e1]
      simp

theorem occursNN_no_nl (l : List Char) (h : '\n' ∉ l) : occursNN l = false := by
  match l with
  | [] => rfl
  | [a] => rfl
  | a :: b :: rest =>
    have ha : ¬a = '\n' := fun hh => h (hh ▸ List.mem_cons_self a (b :: rest))
    have hr : '\n' ∉ b :: rest := fun hh => h (List.mem_cons_of_mem a hh)
    have ih := occursNN_no_nl (b :: rest) hr
    simp [occursNN, ih, ha]

theorem occursNN_append_nl (l J : List Char) (h1 : '\n' ∉ l)
    (h2 : ∀ c ∈ J.head?, ¬c = '\n') (h3 : occursNN J = false) :
    occursNN (l ++ '\n' :: J) = false := by
  induction l with
  | nil =>
    rcases J with _ | ⟨j, J'⟩
    · rfl
    · have hj : ¬j = '\n' := h2 j rfl
      simpa [occursNN, hj] using h3
  | cons a l' ih =>
    have ha : ¬a = '\n' := fun hh => h1 (hh ▸ List.mem_cons_self a l')
    have hl' : '\n' ∉ l' := fun hh => h1 (List.mem_cons_of_mem a hh)
    have ihh := ih hl'
    rcases hl : l' ++ '\n' :: J with _ | ⟨x, xs⟩
    · exact absurd hl (by simp)
    · have e : a :: l' ++ '\n' :: J = a :: x :: xs := by rw [List.cons_append, hl]
      rw [e]
      rw [hl] at ihh
      simp [occursNN, ha, ihh]

theorem occursNN_joinNlL (ls : List (List Char))
    (h : ∀ l ∈ ls, l ≠ [] ∧ '\n' ∉ l) : occursNN (joinNlL ls) = false := by
  induction ls with
  | nil => rfl
  | cons l rest ih =>
    rcases rest with _ | ⟨m, rest'⟩
    · exact occursNN_no_nl l (h l (List.mem_cons_self l [])).2
    · have hm := h m (List.mem_cons_of_mem l (List.mem_cons_self m rest'))
      have hl := h l (List.mem_cons_self l (m :: rest'))
      have e : joinNlL (l :: m :: rest') = l ++ '\n' :: joinNlL (m :: rest') := rfl
      rw [e]
      refine occursNN_append_nl _ _ hl.2 ?_ (ih (fun x hx => h x (List.mem_cons_of_mem l hx)))
      intro c hc
      rw [joinNlL_head? m rest' hm.1] at hc
      intro hcc
      subst hcc
      exact hm.2 (List.mem_of_mem_head? hc)

theorem occursNNN_eq_false (s : List Char) (h : occursNN s = false) :
    occursNNN s = false := by
  match s with
  | [] => rfl
  | [a] => rfl
  | [a, b] => rfl
  | a :: b :: c :: rest =>
    have hstep : occursNN (a :: b :: c :: rest) =
        ((decide (a = '\n') && decide (b = '\n')) || occursNN (b :: c :: rest)) := rfl
    rw [hstep, Bool.or_eq_false_iff] at h
    have ih := occursNNN_eq_false (b :: c :: rest) h.2
    have gstep : occursNNN (a :: b :: c :: rest) =
        ((decide (a = '\n') && decide (b = '\n') && decide (c = '\n'))
          || occursNNN (b :: c :: rest)) := rfl
    rw [gstep, ih, h.1]
    rfl

theorem collapseNNN_of_none (s : List Char) (h : occursNNN s = false) :
    collapseNNN s = s := by
  rw [collapseNNN_eq, h]
  simp

theorem mem_cleanLines (s : List Char) :
    ∀ l ∈ cleanLines s, l ≠ [] ∧ stripChars l = l ∧ '\n' ∉ l := by
  intro l hl
  simp only [cleanLines, List.mem_filter, List.mem_map] at hl
  obtain ⟨⟨l0, hl0, hstrip⟩, hne⟩ := hl
  subst hstrip
  refine ⟨?_, stripChars_idem l0, ?_⟩
  · simpa using hne
  · intro hmem
    exact no_nl_of_mem_splitNlL s l0 hl0 (stripChars_subset l0 hmem)

theorem occursNN_cleanJoin (s : List Char) :
    occursNN (joinNlL (cleanLines s)) = false :=
  occursNN_joinNlL _ (fun l hl => ⟨(mem_cleanLines s l hl).1, (mem_cleanLines s l hl).2.2⟩)

/-- The collapse loop of the normalizer never fires: the joined stripped
nonempty lines are already free of triple newlines. -/
theorem clean_eq_join (x : String) :
    clean_extracted_text x = ⟨joinNlL (cleanLines x.data)⟩ := by
  by_cases hx : x = ""
  · subst hx
    rfl
  · unfold clean_extracted_text
    rw [if_neg hx]
    have h1 := occursNNN_eq_false _ (occursNN_cleanJoin x.data)
    rw [collapseNNN_of_none _ h1]

theorem stripChars_joinNlL (ls : List (List Char)) (hne : ls ≠ [])
    (h : ∀ l ∈ ls, l ≠ [] ∧ stripChars l = l) :
    stripChars (joinNlL ls) = joinNlL ls := by
  rcases ls with _ | ⟨l, rest⟩
  · exact absurd rfl hne
  · apply stripChars_eq_self
    · rw [joinNlL_head? l rest (h l (List.mem_cons_self l rest)).1]
      have hfact := head_not_ws_of_stripChars l
      rw [(h l (List.mem_cons_self l rest)).2] at hfact
      exact hfact
    · rw [joinNlL_getLast? (l :: rest) hne (fun x hx => (h x hx).1)]
      have hmem := List.getLast_mem hne
      have hfact := getLast_not_ws_of_stripChars ((l :: rest).getLast hne)
      rw [(h _ hmem).2] at hfact
      exact hfact

theorem buildChapters_join (lines : List (List Char))
    (hgood : ∀ l ∈ lines, l ≠ [] ∧ stripChars l = l) :
    ∀ (starts : List (Nat × Nat)) (s0 n0 : Nat),
      (∀ p ∈ ((s0, n0) :: starts : List (Nat × Nat)), p.1 < lines.length) →
      List.Chain' (fun a b => a.1 < b.1) ((s0, n0) :: starts) →
      joinNlL (segContents (buildChapters lines ((s0, n0) :: starts))) =
        joinNlL (lines.drop s0) := by
  intro starts
  induction starts with
  | nil =>
    intro s0 n0 hmem _
    have hs0 : s0 < lines.length := hmem (s0, n0) (List.mem_cons_self _ _)
    have hdrop_ne : lines.drop s0 ≠ [] := by
      rw [Ne, List.drop_eq_nil_iff]
      omega
    have htake : (lines.drop s0).take (lines.length - s0) = lines.drop s0 := by
      have hlen : (lines.drop s0).length = lines.length - s0 := List.length_drop s0 lines
      rw [← hlen, List.take_length]
    have hgood2 : ∀ l ∈ lines.drop s0, l ≠ [] ∧ stripChars l = l :=
      fun l hl => hgood l (List.mem_of_mem_drop hl)
    have hstrip : stripChars (joinNlL (lines.drop s0)) = joinNlL (lines.drop s0) :=
      stripChars_joinNlL _ hdrop_ne hgood2
    have hcontent_ne : joinNlL (lines.drop s0) ≠ [] := by
      rcases hd : lines.drop s0 with _ | ⟨a, t⟩
      · exact absurd hd hdrop_ne
      · exact joinNlL_ne_nil a t (hgood2 a (hd ▸ List.mem_cons_self a t)).1
    simp only [buildChapters, nextEnd, htake, hstrip]
    rw [if_neg hcontent_ne]
    rfl
  | cons p1 rest ih =>
    intro s0 n0 hmem hchain
    obtain ⟨s1, n1⟩ := p1
    have hs0 : s0 < lines.length := hmem (s0, n0) (List.mem_cons_self _ _)
    have hs1 : s1 < lines.length := hmem (s1, n1) (by simp)
    have hlt : s0 < s1 := (List.chain'_cons.mp hchain).1
    have hdrop_ne : lines.drop s0 ≠ [] := by
      rw [Ne, List.drop_eq_nil_iff]
      omega
    have hslice_ne : (lines.drop s0).take (s1 - s0) ≠ [] := by
      rw [Ne, List.take_eq_nil_iff]
      push_neg
      exact ⟨by omega, hdrop_ne⟩
    have hgood_slice : ∀ l ∈ (lines.drop s0).take (s1 - s0), l ≠ [] ∧ stripChars l = l :=
      fun l hl => hgood l (List.mem_of_mem_drop (List.mem_of_mem_take hl))
    have hstrip : stripChars (joinNlL ((lines.drop s0).take (s1 - s0)))
        = joinNlL ((lines.drop s0).take (s1 - s0)) :=
      stripChars_joinNlL _ hslice_ne hgood_slice
    have hcontent_ne : joinNlL ((lines.drop s0).take (s1 - s0)) ≠ [] := by
      rcases hd : (lines.drop s0).take (s1 - s0) with _ | ⟨a, t⟩
      · exact absurd hd hslice_ne
      · exact joinNlL_ne_nil a t (hgood_slice a (hd ▸ List.mem_cons_self a t)).1
    have ihh := ih s1 n1 (fun p hp => hmem p (List.mem_cons_of_mem _ hp))
      (List.chain'_cons.mp hchain).2
    -- the tail build is nonempty because its joined contents are nonempty
    have hdrop1_ne : lines.drop s1 ≠ [] := by
      rw [Ne, List.drop_eq_nil_iff]
      omega
    have hJ1_ne : joinNlL (lines.drop s1) ≠ [] := by
      rcases hd : lines.drop s1 with _ | ⟨a, t⟩
      · exact absurd hd hdrop1_ne
      · exact joinNlL_ne_nil a t (hgood a (List.mem_of_mem_drop (hd ▸ List.mem_cons_self a t))).1
    have hCS_ne : segContents (buildChapters lines ((s1, n1) :: rest)) ≠ [] := by
      intro hcs
      rw [hcs] at ihh
      exact hJ1_ne ihh.symm
    -- assemble
    have estep : buildChapters lines ((s0, n0) :: (s1, n1) :: rest) =
        ⟨"Chapter " ++ toString n0, (n0 : Int) - 1,
          ⟨joinNlL ((lines.drop s0).take (s1 - s0))⟩⟩
          :: buildChapters lines ((s1, n1) :: rest) := by
      simp only [buildChapters, nextEnd, hstrip]
      rw [if_neg hcontent_ne]
      rfl
    rw [estep]
    have econt : segContents (⟨"Chapter " ++ toString n0, (n0 : Int) - 1,
        ⟨joinNlL ((lines.drop s0).take (s1 - s0))⟩⟩
          :: buildChapters lines ((s1, n1) :: rest)) =
        joinNlL ((lines.drop s0).take (s1 - s0))
          :: segContents (buildChapters lines ((s1, n1) :: rest)) := rfl
    rw [econt]
    rcases hcs : segContents (buildChapters lines ((s1, n1) :: rest)) with _ | ⟨c1, cs⟩
    · exact absurd hcs hCS_ne
    · have ejoin : joinNlL (joinNlL ((lines.drop s0).take (s1 - s0)) :: c1 :: cs) =
          joinNlL ((lines.drop s0).take (s1 - s0)) ++ '\n' :: joinNlL (c1 :: cs) := rfl
      rw [ejoin, ← hcs, ihh]
      have hsplit : (lines.drop s0).take (s1 - s0) ++ lines.drop s1 = lines.drop s0 := by
        have h1 : (lines.drop s0).drop (s1 - s0) = lines.drop s1 := by
          rw [List.drop_drop]
          congr 1
          omega
        rw [← h1, List.take_append_drop]
      rw [← joinNlL_append _ _ hslice_ne hdrop1_ne, hsplit]

theorem markersFrom_lower (ls : List (List Char)) :
    ∀ (k : Nat), ∀ p ∈ markersFrom k ls, k ≤ p.1 := by
  induction ls with
  | nil =>
    intro k p hp
    simp [markersFrom] at hp
  | cons l rest ih =>
    intro k p hp
    unfold markersFrom at hp
    rcases hpm : parseMarker (stripChars l) with _ | n
    · rw [hpm] at hp
      have := ih (k + 1) p hp
      omega
    · rw [hpm] at hp
      rcases List.mem_cons.mp hp with h1 | h1
      · subst h1
        exact Nat.le_refl k
      · have := ih (k + 1) p h1
        omega

theorem markersFrom_upper (ls : List (List Char)) :
    ∀ (k : Nat), ∀ p ∈ markersFrom k ls, p.1 < k + ls.length := by
  induction ls with
  | nil =>
    intro k p hp
    simp [markersFrom] at hp
  | cons l rest ih =>
    intro k p hp
    unfold markersFrom at hp
    rcases hpm : parseMarker (stripChars l) with _ | n
    · rw [hpm] at hp
      have := ih (k + 1) p hp
      simp only [List.length_cons]
      omega
    · rw [hpm] at hp
      simp only [List.length_cons]
      rcases List.mem_cons.mp hp with h1 | h1
      · subst h1
        omega
      · have := ih (k + 1) p h1
        omega

theorem markersFrom_pairwise (ls : List (List Char)) :
    ∀ (k : Nat), List.Pairwise (fun a b => a.1 < b.1) (markersFrom k ls) := by
  induction ls with
  | nil =>
    intro k
    simp [markersFrom]
  | cons l rest ih =>
    intro k
    unfold markersFrom
    rcases hpm : parseMarker (stripChars l) with _ | n
    · exact ih (k + 1)
    · refine List.pairwise_cons.mpr ⟨?_, ih (k + 1)⟩
      intro q hq
      have := markersFrom_lower rest (k + 1) q hq
      simp only
      omega

theorem markersFrom_parse (ls : List (List Char)) :
    ∀ (k : Nat), ∀ p ∈ markersFrom k ls,
      ∃ l, ls[p.1 - k]? = some l ∧ parseMarker (stripChars l) = some p.2 := by
  induction ls with
  | nil =>
    intro k p hp
    simp [markersFrom] at hp
  | cons l rest ih =>
    intro k p hp
    unfold markersFrom at hp
    rcases hpm : parseMarker (stripChars l) with _ | n
    · rw [hpm] at hp
      obtain ⟨m, hm1, hm2⟩ := ih (k + 1) p hp
      refine ⟨m, ?_, hm2⟩
      have hge := markersFrom_lower rest (k + 1) p hp
      have : p.1 - k = (p.1 - (k + 1)) + 1 := by omega
      rw [this]
      simpa using hm1
    · rw [hpm] at hp
      rcases List.mem_cons.mp hp with h1 | h1
      · subst h1
        exact ⟨l, by simp, hpm⟩
      · obtain ⟨m, hm1, hm2⟩ := ih (k + 1) p h1
        refine ⟨m, ?_, hm2⟩
        have hge := markersFrom_lower rest (k + 1) p h1
        have : p.1 - k = (p.1 - (k + 1)) + 1 := by omega
        rw [this]
        simpa using hm1

theorem markersFrom_of_get (ls : List (List Char)) :
    ∀ (k j : Nat) (l : List Char) (n : Nat), ls[j]? = some l →
      parseMarker (stripChars l) = some n → (k + j, n) ∈ markersFrom k ls := by
  induction ls with
  | nil =>
    intro k j l n hget _
    simp at hget
  | cons a rest ih =>
    intro k j l n hget hparse
    cases j with
    | zero =>
      simp only [List.getElem?_cons_zero, Option.some.injEq] at hget
      subst hget
      unfold markersFrom
      rw [hparse]
      simp
    | succ j =>
      simp only [List.getElem?_cons_succ] at hget
      have := ih (k + 1) j l n hget hparse
      unfold markersFrom
      rcases hpm : parseMarker (stripChars a) with _ | m
      · have e : k + (j + 1) = (k + 1) + j := by omega
        rw [e]
        exact this
      · have e : k + (j + 1) = (k + 1) + j := by omega
        rw [e]
        exact List.mem_cons_of_mem _ this

/-- On a text whose lines are all nonempty and stripped (as the normalizer
produces), the segments of `detect_chapters` joined with single newlines
reproduce the text exactly. -/
theorem detect_partition_lines (t : String) (ht : t ≠ "")
    (hgood : ∀ l ∈ splitNlL t.data, l ≠ [] ∧ stripChars l = l) :
    joinNlL (segContents (detect_chapters t)) = t.data := by
  have hlines_ne : splitNlL t.data ≠ [] := splitNlL_ne_nil _
  have hjoin : joinNlL (splitNlL t.data) = t.data := joinNlL_splitNlL _
  unfold detect_chapters
  rw [if_neg ht]
  rcases hm : markersFrom 0 (splitNlL t.data) with _ | ⟨⟨p, n⟩, rest⟩
  · have hstrip : stripChars t.data = t.data := by
      rw [← hjoin]
      exact stripChars_joinNlL _ hlines_ne hgood
    have hdata_ne : t.data ≠ [] := by
      intro h
      exact ht (String.ext h)
    rw [hstrip, if_neg hdata_ne]
    show joinNlL [t.data] = t.data
    rfl
  · have hpw := markersFrom_pairwise (splitNlL t.data) 0
    rw [hm] at hpw
    have hchain := hpw.chain'
    have hupper : ∀ q ∈ ((p, n) :: rest : List (Nat × Nat)),
        q.1 < (splitNlL t.data).length := by
      intro q hq
      have := markersFrom_upper (splitNlL t.data) 0 q (hm ▸ hq)
      omega
    have htel := buildChapters_join (splitNlL t.data) hgood rest p n hupper hchain
    have hp_len : p < (splitNlL t.data).length := hupper (p, n) (List.mem_cons_self _ _)
    have hdropp_ne : (splitNlL t.data).drop p ≠ [] := by
      rw [Ne, List.drop_eq_nil_iff]
      omega
    have hJp_ne : joinNlL ((splitNlL t.data).drop p) ≠ [] := by
      rcases hd : (splitNlL t.data).drop p with _ | ⟨a, tl⟩
      · exact absurd hd hdropp_ne
      · exact joinNlL_ne_nil a tl
          (hgood a (List.mem_of_mem_drop (hd ▸ List.mem_cons_self a tl))).1
    have hCS_ne : segContents (buildChapters (splitNlL t.data) ((p, n) :: rest)) ≠ [] := by
      intro h
      rw [h] at htel
      exact hJp_ne htel.symm
    show joinNlL (segContents
        ((if 0 < p then
            (if stripChars (joinNlL ((splitNlL t.data).take p)) = [] then []
             else [⟨"Introduction", -1,
               ⟨stripChars (joinNlL ((splitNlL t.data).take p))⟩⟩])
          else [])
          ++ buildChapters (splitNlL t.data) ((p, n) :: rest))) = t.data
    by_cases hp : 0 < p
    · rw [if_pos hp]
      have htake_ne : (splitNlL t.data).take p ≠ [] := by
        rw [Ne, List.take_eq_nil_iff]
        push_neg
        exact ⟨by omega, hlines_ne⟩
      have hgood_take : ∀ l ∈ (splitNlL t.data).take p, l ≠ [] ∧ stripChars l = l :=
        fun l hl => hgood l (List.mem_of_mem_take hl)
      have hstrip_take : stripChars (joinNlL ((splitNlL t.data).take p))
          = joinNlL ((splitNlL t.data).take p) :=
        stripChars_joinNlL _ htake_ne hgood_take
      have hc_ne : joinNlL ((splitNlL t.data).take p) ≠ [] := by
        rcases hd : (splitNlL t.data).take p with _ | ⟨a, tl⟩
        · exact absurd hd htake_ne
        · exact joinNlL_ne_nil a tl
            (hgood_take a (hd ▸ List.mem_cons_self a tl)).1
      rw [hstrip_take, if_neg hc_ne]
      rcases hcs : segContents (buildChapters (splitNlL t.data) ((p, n) :: rest))
        with _ | ⟨c1, cs⟩
      · exact absurd hcs hCS_ne
      · have e1 : segContents
            ([⟨"Introduction", -1, ⟨joinNlL ((splitNlL t.data).take p)⟩⟩]
              ++ buildChapters (splitNlL t.data) ((p, n) :: rest)) =
            joinNlL ((splitNlL t.data).take p)
              :: segContents (buildChapters (splitNlL t.data) ((p, n) :: rest)) := rfl
        rw [e1, hcs]
        have e2 : joinNlL (joinNlL ((splitNlL t.data).take p) :: c1 :: cs) =
            joinNlL ((splitNlL t.data).take p) ++ '\n' :: joinNlL (c1 :: cs) := rfl
        rw [e2, ← hcs, htel, ← joinNlL_append _ _ htake_ne hdropp_ne,
          List.take_append_drop, hjoin]
    · rw [if_neg hp]
      have hp0 : p = 0 := by omega
      subst hp0
      rw [List.nil_append, htel, List.drop_zero, hjoin]

theorem clean_lines_roundtrip (x : String) (l0 : List Char) (CL' : List (List Char))
    (hCL : cleanLines x.data = l0 :: CL') :
    clean_extracted_text x ≠ "" ∧
    splitNlL (clean_extracted_text x).data = cleanLines x.data := by
  have hgood := mem_cleanLines x.data
  have hl0 : l0 ≠ [] := (hgood l0 (by rw [hCL]; exact List.mem_cons_self l0 CL')).1
  have hdata : (clean_extracted_text x).data = joinNlL (cleanLines x.data) := by
    rw [clean_eq_join]
  constructor
  · intro h
    have hd : (clean_extracted_text x).data = [] := by rw [h]
    rw [hdata, hCL] at hd
    exact joinNlL_ne_nil l0 CL' hl0 hd
  · rw [hdata]
    exact splitNlL_joinNlL _ (by rw [hCL]; simp) (fun l hl => (hgood l hl).2.2)

/-- Claim C1 (amended): for every text `x`, joining the contents of the
segments of `detect_chapters (clean_extracted_text x)` in the order they are
emitted (introduction first, then chapters in document order), with a single
newline between consecutive segment contents, reproduces
`clean_extracted_text x` exactly. -/
theorem C1_partition (x : String) :
    joinNlL (segContents (detect_chapters (clean_extracted_text x))) =
      (clean_extracted_text x).data := by
  rcases hCL : cleanLines x.data with _ | ⟨l0, CL'⟩
  · have h0 : clean_extracted_text x = "" := by rw [clean_eq_join, hCL]; rfl
    rw [h0]
    rfl
  · obtain ⟨hne, hsplit⟩ := clean_lines_roundtrip x l0 CL' hCL
    apply detect_partition_lines _ hne
    intro l hl
    rw [hsplit] at hl
    exact ⟨(mem_cleanLines x.data l hl).1, (mem_cleanLines x.data l hl).2.1⟩

/-- Claim C1 as stated is false: `detect_chapters` applied to a raw
(non-normalized) text keeps the raw interior, so its concatenated segment
contents differ from the normalized text.  At `"a\n\nb"` the single
introduction segment has content `"a\n\nb"` while the normalizer yields
`"a\nb"`. -/
theorem C1_counterexample :
    ¬ joinNlL (segContents (detect_chapters "a\n\nb")) =
        (clean_extracted_text "a\n\nb").data := by
  decide

/-- Claim C2: the normalizer is idempotent. -/
theorem C2_idempotent (x : String) :
    clean_extracted_text (clean_extracted_text x) = clean_extracted_text x := by
  rcases hCL : cleanLines x.data with _ | ⟨l0, CL'⟩
  · have h0 : clean_extracted_text x = "" := by rw [clean_eq_join, hCL]; rfl
    rw [h0]
    rfl
  · obtain ⟨hne, hsplit⟩ := clean_lines_roundtrip x l0 CL' hCL
    have hgood := mem_cleanLines x.data
    have hCL2 : cleanLines (clean_extracted_text x).data = cleanLines x.data := by
      unfold cleanLines
      rw [hsplit]
      have hmap : (cleanLines x.data).map stripChars = cleanLines x.data := by
        have h1 : (cleanLines x.data).map stripChars = (cleanLines x.data).map id :=
          List.map_congr_left (fun l hl => (hgood l hl).2.1)
        rw [h1, List.map_id]
      rw [hmap]
      apply List.filter_eq_self.mpr
      intro l hl
      simpa using (hgood l hl).1
    calc clean_extracted_text (clean_extracted_text x)
        = ⟨joinNlL (cleanLines (clean_extracted_text x).data)⟩ := clean_eq_join _
      _ = ⟨joinNlL (cleanLines x.data)⟩ := by rw [hCL2]
      _ = clean_extracted_text x := (clean_eq_join x).symm

/-- Claim C9: the normalizer's output never contains two consecutive newline
characters (no empty line survives), and consequently the collapse step that
rewrites triple newlines never fires — the collapse loop is the identity on
the joined stripped lines. -/
theorem C9_no_double_newline (x : String) :
    occursNN (clean_extracted_text x).data = false ∧
    collapseNNN (joinNlL (cleanLines x.data)) = joinNlL (cleanLines x.data) := by
  constructor
  · rw [clean_eq_join]
    exact occursNN_cleanJoin x.data
  · exact collapseNNN_of_none _ (occursNNN_eq_false _ (occursNN_cleanJoin x.data))

theorem markersFrom_eq_nil (ls : List (List Char)) :
    ∀ (k : Nat), (∀ l ∈ ls, parseMarker (stripChars l) = none) →
      markersFrom k ls = [] := by
  induction ls with
  | nil => intro k _; rfl
  | cons l rest ih =>
    intro k h
    unfold markersFrom
    rw [h l (List.mem_cons_self l rest)]
    exact ih (k + 1) (fun x hx => h x (List.mem_cons_of_mem l hx))

/-- Claim C5: when no line of the input text is a chapter marker,
`detect_chapters` yields exactly one `"Introduction"` segment with ordinal
`-1` whose content is the fully trimmed text, and no segment at all when the
text trims to empty. -/
theorem C5_no_marker (x : String)
    (h : ∀ l ∈ splitNlL x.data, parseMarker (stripChars l) = none) :
    detect_chapters x =
      if stripChars x.data = [] then []
      else [⟨"Introduction", -1, ⟨stripChars x.data⟩⟩] := by
  by_cases hx : x = ""
  · subst hx
    rfl
  · unfold detect_chapters
    rw [if_neg hx, markersFrom_eq_nil _ 0 h]

/-- Witness for `C5_no_marker` at the spec's example input. -/
theorem C5_no_marker_witness :
    detect_chapters "plain text\nwith no markers" =
      [⟨"Introduction", -1, "plain text\nwith no markers"⟩] := by
  have h := C5_no_marker "plain text\nwith no markers" (by decide)
  rw [h]
  decide

theorem marker_slice_content_ne (lines : List (List Char)) (s e : Nat)
    (hse : s < e) (l : List Char) (hget : lines[s]? = some l)
    (hne : stripChars l ≠ []) :
    stripChars (joinNlL ((lines.drop s).take (e - s))) ≠ [] := by
  obtain ⟨hs, hval⟩ := List.getElem?_eq_some_iff.mp hget
  obtain ⟨c, hcmem, hcws⟩ : ∃ c ∈ l, c.isWhitespace = false := by
    by_contra hcon
    push_neg at hcon
    exact hne ((stripChars_eq_nil_iff l).mpr
      (fun c hc => by
        have := hcon c hc
        revert this
        cases c.isWhitespace <;> simp))
  have hdrop : lines.drop s = l :: lines.drop (s + 1) := by
    rw [List.drop_eq_getElem_cons hs, hval]
  have hes : e - s = (e - s - 1) + 1 := by omega
  have htake : (lines.drop s).take (e - s) = l :: (lines.drop (s + 1)).take (e - s - 1) := by
    rw [hdrop, hes]
    rfl
  rw [htake]
  have hcj : c ∈ joinNlL (l :: (lines.drop (s + 1)).take (e - s - 1)) := by
    rcases hX : (lines.drop (s + 1)).take (e - s - 1) with _ | ⟨m, X'⟩
    · exact hcmem
    · exact List.mem_append_left _ hcmem
  exact stripChars_ne_nil _ c hcj hcws

theorem parseMarker_nil : parseMarker [] = none := rfl

theorem strip_ne_nil_of_parse (l : List Char) (n : Nat)
    (h : parseMarker (stripChars l) = some n) : stripChars l ≠ [] := by
  intro hnil
  rw [hnil, parseMarker_nil] at h
  exact Option.noConfusion h

/-- Every marker yields a chapter segment (the marker line itself makes the
content nonempty), so `buildChapters` maps its marker list one-to-one:
labels are `"Chapter {n}"` and ordinals `n - 1`, in marker order. -/
theorem buildChapters_map_ordinals (lines : List (List Char)) :
    ∀ (starts : List (Nat × Nat)),
      (∀ p ∈ starts, p.1 < lines.length ∧
        ∃ l, lines[p.1]? = some l ∧ parseMarker (stripChars l) = some p.2) →
      List.Chain' (fun a b => a.1 < b.1) starts →
      (buildChapters lines starts).map Segment.ordinal =
          starts.map (fun p => (p.2 : Int) - 1) ∧
      (buildChapters lines starts).map Segment.label =
          starts.map (fun p => "Chapter " ++ toString p.2) := by
  intro starts
  induction starts with
  | nil => exact fun _ _ => ⟨rfl, rfl⟩
  | cons p0 rest ih =>
    intro hmem hchain
    obtain ⟨s, n⟩ := p0
    obtain ⟨hs, l, hget, hparse⟩ := hmem (s, n) (List.mem_cons_self _ _)
    have hse : s < nextEnd rest lines.length := by
      rcases rest with _ | ⟨⟨s', n'⟩, rest'⟩
      · exact hs
      · exact (List.chain'_cons.mp hchain).1
    have hcontent := marker_slice_content_ne lines s _ hse l hget
      (strip_ne_nil_of_parse l n hparse)
    have ihh := ih (fun p hp => hmem p (List.mem_cons_of_mem _ hp)) hchain.tail
    have estep : buildChapters lines ((s, n) :: rest) =
        ⟨"Chapter " ++ toString n, (n : Int) - 1,
          ⟨stripChars (joinNlL ((lines.drop s).take
            (nextEnd rest lines.length - s)))⟩⟩ :: buildChapters lines rest := by
      simp only [buildChapters]
      rw [if_neg hcontent]
      rfl
    rw [estep]
    exact ⟨by simp only [List.map_cons, ihh.1], by simp only [List.map_cons, ihh.2]⟩

theorem chapter_label_ne_intro (n : Nat) :
    ("Chapter " ++ toString n) ≠ "Introduction" := by
  intro h
  have h2 := congrArg (fun s => s.data.head?) h
  simp only [String.data_append] at h2
  rw [head?_append_ne_nil _ _ (by decide)] at h2
  exact absurd h2 (by decide)

theorem mem_buildChapters_label (lines : List (List Char))
    (starts : List (Nat × Nat))
    (hmem : ∀ p ∈ starts, p.1 < lines.length ∧
      ∃ l, lines[p.1]? = some l ∧ parseMarker (stripChars l) = some p.2)
    (hchain : List.Chain' (fun a b => a.1 < b.1) starts) :
    ∀ seg ∈ buildChapters lines starts, seg.label ≠ "Introduction" := by
  intro seg hseg
  have hlab := (buildChapters_map_ordinals lines starts hmem hchain).2
  have hin : seg.label ∈ (buildChapters lines starts).map Segment.label :=
    List.mem_map_of_mem _ hseg
  rw [hlab] at hin
  obtain ⟨q, _, hq⟩ := List.mem_map.mp hin
  rw [← hq]
  exact chapter_label_ne_intro q.2

theorem markersFrom_facts (x : String) (p : Nat × Nat)
    (hp : p ∈ markersFrom 0 (splitNlL x.data)) :
    p.1 < (splitNlL x.data).length ∧
      ∃ l, (splitNlL x.data)[p.1]? = some l ∧
        parseMarker (stripChars l) = some p.2 := by
  constructor
  · have := markersFrom_upper (splitNlL x.data) 0 p hp
    omega
  · obtain ⟨l, h1, h2⟩ := markersFrom_parse (splitNlL x.data) 0 p hp
    exact ⟨l, by simpa using h1, h2⟩

/-- The parsed chapter numbers of the marker lines of a text, in document
order. -/
def markerNums (text : String) : List Nat :=
  (markersFrom 0 (splitNlL text.data)).map Prod.snd

theorem detect_chapters_no_marker (x : String) (hx : x ≠ "")
    (hm : markersFrom 0 (splitNlL x.data) = []) :
    detect_chapters x =
      if stripChars x.data = [] then []
      else [⟨"Introduction", -1, ⟨stripChars x.data⟩⟩] := by
  unfold detect_chapters
  rw [if_neg hx, hm]

theorem detect_chapters_marker (x : String) (hx : x ≠ "") (p n : Nat)
    (rest : List (Nat × Nat))
    (hm : markersFrom 0 (splitNlL x.data) = (p, n) :: rest) :
    detect_chapters x =
      (if 0 < p then
        (if stripChars (joinNlL ((splitNlL x.data).take p)) = [] then []
         else [⟨"Introduction", -1,
           ⟨stripChars (joinNlL ((splitNlL x.data).take p))⟩⟩])
       else [])
      ++ buildChapters (splitNlL x.data) ((p, n) :: rest) := by
  unfold detect_chapters
  rw [if_neg hx, hm]

/-- Structural facts shared by every segment list of the shape
"optional introduction segment followed by chapter segments". -/
theorem intro_chapters_shape (P : Prop) (IP B : List Segment)
    (hIP : IP = [] ∨ ∃ c : String, IP = [⟨"Introduction", -1, c⟩])
    (hlabelsB : ∀ seg ∈ B, seg.label ≠ "Introduction")
    (hchainB : P → List.Chain' (· < ·) (B.map Segment.ordinal)) :
    (IP ++ B).countP (fun s => s.label == "Introduction") ≤ 1
    ∧ (∀ seg ∈ (IP ++ B).drop 1, seg.label ≠ "Introduction")
    ∧ (P → List.Chain' (· < ·) (((IP ++ B).filter
        (fun s => !(s.label == "Introduction"))).map Segment.ordinal)) := by
  have hcountB : B.countP (fun s => s.label == "Introduction") = 0 := by
    rw [List.countP_eq_zero]
    intro seg hseg
    simpa using hlabelsB seg hseg
  have hfilterB : B.filter (fun s => !(s.label == "Introduction")) = B := by
    apply List.filter_eq_self.mpr
    intro seg hseg
    simpa using hlabelsB seg hseg
  rcases hIP with h | ⟨c, h⟩ <;> subst h
  · rw [List.nil_append]
    refine ⟨by simp [hcountB], ?_, ?_⟩
    · intro seg hseg
      exact hlabelsB seg (List.mem_of_mem_drop hseg)
    · intro hP
      rw [hfilterB]
      exact hchainB hP
  · rw [List.singleton_append]
    refine ⟨?_, ?_, ?_⟩
    · rw [List.countP_cons, hcountB]
      simp
    · intro seg hseg
      simp only [List.drop_succ_cons, List.drop_zero] at hseg
      exact hlabelsB seg hseg
    · intro hP
      rw [List.filter_cons]
      have hfalse : (!((⟨"Introduction", -1, c⟩ : Segment).label
          == "Introduction")) = false := by
        simp
      rw [hfalse]
      simp only [Bool.false_eq_true, if_false]
      rw [hfilterB]
      exact hchainB hP

/-- Claim C8 (amended): the segmenter emits at most one segment labeled
`"Introduction"` (ordinal `-1`), always first when present, and the ordinals
of the chapter segments are strictly increasing whenever the parsed marker
numbers are strictly increasing in document order.  (As stated the claim
fails: out-of-order or duplicate marker numbers, and a `CHAPTER 0` marker
whose ordinal is also `-1`, are passed through verbatim.) -/
theorem C8_ordinals (x : String) :
    (detect_chapters x).countP (fun s => s.label == "Introduction") ≤ 1
    ∧ (∀ seg ∈ (detect_chapters x).drop 1, seg.label ≠ "Introduction")
    ∧ (List.Chain' (· < ·) (markerNums x) →
       List.Chain' (· < ·)
         (((detect_chapters x).filter
           (fun s => !(s.label == "Introduction"))).map Segment.ordinal)) := by
  by_cases hx : x = ""
  · subst hx
    rw [show detect_chapters "" = [] from rfl]
    refine ⟨by simp, by simp, fun _ => by simp⟩
  · rcases hm : markersFrom 0 (splitNlL x.data) with _ | ⟨⟨p, n⟩, rest⟩
    · rw [detect_chapters_no_marker x hx hm]
      by_cases hs : stripChars x.data = []
      · rw [if_pos hs]
        refine ⟨by simp, by simp, fun _ => by simp⟩
      · rw [if_neg hs]
        have hshape := intro_chapters_shape (List.Chain' (· < ·) (markerNums x))
          [⟨"Introduction", -1, ⟨stripChars x.data⟩⟩] []
          (Or.inr ⟨⟨stripChars x.data⟩, rfl⟩) (by simp) (fun _ => by simp)
        rw [List.append_nil] at hshape
        exact hshape
    · have hfacts : ∀ q ∈ ((p, n) :: rest : List (Nat × Nat)),
          q.1 < (splitNlL x.data).length ∧
          ∃ l, (splitNlL x.data)[q.1]? = some l ∧
            parseMarker (stripChars l) = some q.2 :=
        fun q hq => markersFrom_facts x q (hm ▸ hq)
      have hpw := markersFrom_pairwise (splitNlL x.data) 0
      rw [hm] at hpw
      have hchain := hpw.chain'
      rw [detect_chapters_marker x hx p n rest hm]
      apply intro_chapters_shape
      · by_cases h1 : 0 < p
        · by_cases h2 : stripChars (joinNlL ((splitNlL x.data).take p)) = []
          · rw [if_pos h1, if_pos h2]
            exact Or.inl rfl
          · rw [if_pos h1, if_neg h2]
            exact Or.inr ⟨_, rfl⟩
        · rw [if_neg h1]
          exact Or.inl rfl
      · exact mem_buildChapters_label _ _ hfacts hchain
      · intro hcn
        rw [(buildChapters_map_ordinals _ _ hfacts hchain).1]
        unfold markerNums at hcn
        rw [hm] at hcn
        rw [List.chain'_map] at hcn ⊢
        refine List.Chain'.imp ?_ hcn
        intro a b hab
        dsimp only
        omega

/-- Claim C8 as stated is false: marker numbers are used verbatim, so
out-of-order markers produce non-increasing chapter ordinals.  On
`"CHAPTER 2\nCHAPTER 1"` the chapter segments carry ordinals `[1, 0]`. -/
theorem C8_counterexample :
    ¬ List.Chain' (· < ·)
        (((detect_chapters "CHAPTER 2\nCHAPTER 1").filter
          (fun s => !(s.label == "Introduction"))).map Segment.ordinal) := by
  rw [show ((detect_chapters "CHAPTER 2\nCHAPTER 1").filter
      (fun s => !(s.label == "Introduction"))).map Segment.ordinal
      = [1, 0] from by decide]
  intro h
  have := (List.chain'_cons.mp h).1
  omega

/-- Witness for `C8_ordinals`: with increasing marker numbers the chapter
ordinals increase. -/
theorem C8_ordinals_witness :
    List.Chain' (· < ·)
      (((detect_chapters "CHAPTER 1\nCHAPTER 2").filter
        (fun s => !(s.label == "Introduction"))).map Segment.ordinal) := by
  apply (C8_ordinals "CHAPTER 1\nCHAPTER 2").2.2
  rw [show markerNums "CHAPTER 1\nCHAPTER 2" = [1, 2] from by decide]
  exact List.chain'_cons.mpr ⟨by omega, List.chain'_singleton _⟩

theorem digit_not_ws (c : Char) (h : c.isDigit = true) : c.isWhitespace = false := by
  by_contra hw
  rw [Bool.not_eq_false] at hw
  simp only [Char.isWhitespace, Bool.or_eq_true, decide_eq_true_eq] at hw
  rcases hw with ((h1 | h1) | h1) | h1 <;> subst h1 <;> exact absurd h (by decide)

theorem parseMarker_cons8 (c1 c2 c3 c4 c5 c6 c7 w : Char) (rest2 : List Char) :
    parseMarker (c1 :: c2 :: c3 :: c4 :: c5 :: c6 :: c7 :: w :: rest2) =
      if c1 = 'C' ∧ c2 = 'H' ∧ c3 = 'A' ∧ c4 = 'P' ∧ c5 = 'T' ∧ c6 = 'E' ∧ c7 = 'R'
          ∧ w.isWhitespace then
        (if ((rest2.dropWhile Char.isWhitespace).takeWhile Char.isDigit) ≠ [] ∧
            ((rest2.dropWhile Char.isWhitespace).dropWhile Char.isDigit) = [] then
          some (digitsToNat ((rest2.dropWhile Char.isWhitespace).takeWhile Char.isDigit))
        else none)
      else none := rfl

/-- The parser accepts exactly the decompositions
`"CHAPTER"`, one or more whitespace characters, one or more digits, and
returns the decimal value of the digit block. -/
theorem parseMarker_iff (s : List Char) (n : Nat) :
    parseMarker s = some n ↔
      ∃ a b : List Char, s = "CHAPTER".data ++ a ++ b ∧ a ≠ [] ∧
        (∀ c ∈ a, c.isWhitespace = true) ∧ b ≠ [] ∧
        (∀ c ∈ b, c.isDigit = true) ∧ n = digitsToNat b := by
  constructor
  · intro h
    rcases s with _ | ⟨c1, _ | ⟨c2, _ | ⟨c3, _ | ⟨c4, _ | ⟨c5, _ | ⟨c6, _ | ⟨c7,
      _ | ⟨w, rest2⟩⟩⟩⟩⟩⟩⟩⟩
    · exact absurd h (by simp [parseMarker])
    · exact absurd h (by simp [parseMarker])
    · exact absurd h (by simp [parseMarker])
    · exact absurd h (by simp [parseMarker])
    · exact absurd h (by simp [parseMarker])
    · exact absurd h (by simp [parseMarker])
    · exact absurd h (by simp [parseMarker])
    · exact absurd h (by simp [parseMarker])
    · rw [parseMarker_cons8] at h
      by_cases hc : c1 = 'C' ∧ c2 = 'H' ∧ c3 = 'A' ∧ c4 = 'P' ∧ c5 = 'T' ∧ c6 = 'E'
          ∧ c7 = 'R' ∧ w.isWhitespace
      · rw [if_pos hc] at h
        obtain ⟨e1, e2, e3, e4, e5, e6, e7, hw⟩ := hc
        subst e1; subst e2; subst e3; subst e4; subst e5; subst e6; subst e7
        by_cases h2 : ((rest2.dropWhile Char.isWhitespace).takeWhile Char.isDigit) ≠ [] ∧
            ((rest2.dropWhile Char.isWhitespace).dropWhile Char.isDigit) = []
        · rw [if_pos h2] at h
          simp only [Option.some.injEq] at h
          refine ⟨w :: rest2.takeWhile Char.isWhitespace,
            (rest2.dropWhile Char.isWhitespace).takeWhile Char.isDigit,
            ?_, by simp, ?_, h2.1, ?_, h.symm⟩
          · have hsplit2 : rest2 = rest2.takeWhile Char.isWhitespace
                ++ rest2.dropWhile Char.isWhitespace :=
              (List.takeWhile_append_dropWhile Char.isWhitespace rest2).symm
            have hsplit3 : rest2.dropWhile Char.isWhitespace =
                (rest2.dropWhile Char.isWhitespace).takeWhile Char.isDigit := by
              have hx := (List.takeWhile_append_dropWhile Char.isDigit
                (rest2.dropWhile Char.isWhitespace))
              rw [h2.2, List.append_nil] at hx
              exact hx.symm
            show 'C' :: 'H' :: 'A' :: 'P' :: 'T' :: 'E' :: 'R' :: w :: rest2 =
              "CHAPTER".data ++ (w :: rest2.takeWhile Char.isWhitespace)
                ++ (rest2.dropWhile Char.isWhitespace).takeWhile Char.isDigit
            rw [show "CHAPTER".data = ['C', 'H', 'A', 'P', 'T', 'E', 'R'] from rfl]
            simp only [List.cons_append, List.nil_append, List.append_assoc]
            rw [← hsplit3, ← hsplit2]
          · intro c hcmem
            rcases List.mem_cons.mp hcmem with h1 | h1
            · subst h1
              exact hw
            · exact List.mem_takeWhile_imp h1
          · intro c hcmem
            exact List.mem_takeWhile_imp hcmem
        · rw [if_neg h2] at h
          exact absurd h (by simp)
      · rw [if_neg hc] at h
        exact absurd h (by simp)
  · rintro ⟨a, b, hs, ha_ne, ha, hb_ne, hb, hn⟩
    subst hs
    rcases a with _ | ⟨w, a'⟩
    · exact absurd rfl ha_ne
    · rcases b with _ | ⟨d, b'⟩
      · exact absurd rfl hb_ne
      · have hw : w.isWhitespace = true := ha w (List.mem_cons_self _ _)
        have hshape : "CHAPTER".data ++ (w :: a') ++ (d :: b') =
            'C' :: 'H' :: 'A' :: 'P' :: 'T' :: 'E' :: 'R' :: w :: (a' ++ d :: b') := by
          rw [show "CHAPTER".data = ['C', 'H', 'A', 'P', 'T', 'E', 'R'] from rfl]
          simp
        rw [hshape, parseMarker_cons8]
        rw [if_pos ⟨rfl, rfl, rfl, rfl, rfl, rfl, rfl, hw⟩]
        have hdrop : (a' ++ d :: b').dropWhile Char.isWhitespace = d :: b' := by
          have h1 : a'.dropWhile Char.isWhitespace = [] :=
            List.dropWhile_eq_nil_iff.mpr (fun x hx => ha x (List.mem_cons_of_mem w hx))
          rw [List.dropWhile_append, h1]
          simp only [List.isEmpty_nil, if_true]
          rw [List.dropWhile_cons_of_neg]
          rw [digit_not_ws d (hb d (List.mem_cons_self _ _))]
          simp
        rw [hdrop]
        have htake : (d :: b').takeWhile Char.isDigit = d :: b' :=
          List.takeWhile_eq_self_iff.mpr hb
        have hdropd : (d :: b').dropWhile Char.isDigit = [] :=
          List.dropWhile_eq_nil_iff.mpr hb
        rw [htake, hdropd]
        rw [if_pos ⟨by simp, rfl⟩]
        rw [hn]

/-- Line index ending the chapter that starts at marker line `i`: the
position of the next marker after `i` in document order, or `len` (the end of
the document) when none follows. -/
def nextOf (starts : List (Nat × Nat)) (i len : Nat) : Nat :=
  match starts.filter (fun q => decide (i < q.1)) with
  | [] => len
  | q :: _ => q.1

/-- End line for the chapter whose marker sits at line `i` of the text. -/
def nextMarkerEnd (text : String) (i : Nat) : Nat :=
  nextOf (markersFrom 0 (splitNlL text.data)) i (splitNlL text.data).length

theorem mem_buildChapters_of_marker (lines : List (List Char)) :
    ∀ (starts : List (Nat × Nat)),
      List.Pairwise (fun a b => a.1 < b.1) starts →
      (∀ q ∈ starts, q.1 < lines.length ∧
        ∃ l, lines[q.1]? = some l ∧ parseMarker (stripChars l) = some q.2) →
      ∀ i n : Nat, (i, n) ∈ starts →
        (⟨"Chapter " ++ toString n, (n : Int) - 1,
          ⟨stripChars (joinNlL ((lines.drop i).take
            (nextOf starts i lines.length - i)))⟩⟩ : Segment)
          ∈ buildChapters lines starts := by
  intro starts
  induction starts with
  | nil =>
    intro _ _ i n hmem
    simp at hmem
  | cons p0 rest ih =>
    intro hpw hfacts i n hmem
    obtain ⟨s0, m0⟩ := p0
    have hpw' := List.pairwise_cons.mp hpw
    rcases List.mem_cons.mp hmem with heq | hmem'
    · injection heq with hi hn
      subst hi
      subst hn
      have hnext : nextOf ((i, n) :: rest) i lines.length = nextEnd rest lines.length := by
        unfold nextOf
        rw [List.filter_cons]
        have hfalse : decide (i < (i, n).1) = false := by simp
        rw [hfalse]
        simp only [Bool.false_eq_true, if_false]
        have hrest : rest.filter (fun q => decide (i < q.1)) = rest := by
          apply List.filter_eq_self.mpr
          intro q hq
          simp only [decide_eq_true_eq]
          exact hpw'.1 q hq
        rw [hrest]
        rcases rest with _ | ⟨q1, rest'⟩
        · rfl
        · rfl
      rw [hnext]
      obtain ⟨hs0len, l, hget, hparse⟩ := hfacts (i, n) (List.mem_cons_self _ _)
      have hse : i < nextEnd rest lines.length := by
        rcases rest with _ | ⟨⟨s1, n1⟩, rest'⟩
        · exact hs0len
        · exact hpw'.1 (s1, n1) (List.mem_cons_self _ _)
      have hcontent := marker_slice_content_ne lines i _ hse l hget
        (strip_ne_nil_of_parse l n hparse)
      have estep : buildChapters lines ((i, n) :: rest) =
          ⟨"Chapter " ++ toString n, (n : Int) - 1,
            ⟨stripChars (joinNlL ((lines.drop i).take
              (nextEnd rest lines.length - i)))⟩⟩ :: buildChapters lines rest := by
        simp only [buildChapters]
        rw [if_neg hcontent]
        rfl
      rw [estep]
      exact List.mem_cons_self _ _
    · have hs0i : s0 < i := hpw'.1 (i, n) hmem'
      have hnext : nextOf ((s0, m0) :: rest) i lines.length
          = nextOf rest i lines.length := by
        unfold nextOf
        rw [List.filter_cons]
        have hfalse : decide (i < (s0, m0).1) = false := by
          simp only [decide_eq_false_iff_not]
          omega
        rw [hfalse]
        simp only [Bool.false_eq_true, if_false]
      rw [hnext]
      have ihh := ih hpw'.2 (fun q hq => hfacts q (List.mem_cons_of_mem _ hq)) i n hmem'
      have hsplitB : buildChapters lines ((s0, m0) :: rest) =
          (if stripChars (joinNlL ((lines.drop s0).take
              (nextEnd rest lines.length - s0))) = [] then []
           else [⟨"Chapter " ++ toString m0, (m0 : Int) - 1,
             ⟨stripChars (joinNlL ((lines.drop s0).take
               (nextEnd rest lines.length - s0)))⟩⟩])
            ++ buildChapters lines rest := by
        simp only [buildChapters]
      rw [hsplitB]
      exact List.mem_append_right _ ihh

/-- Claim C3 (amended): a line is treated as a chapter-start marker if and
only if its entire trimmed content is the literal case-sensitive token
`CHAPTER` followed by one or more whitespace characters and a non-negative
integer (the code's `\s+` also accepts tabs, not only spaces); for each
marker at line `i` with parsed number `n`, the segmenter emits a segment
labeled `"Chapter {n}"` with ordinal `n - 1` whose content is the trimmed
span from line `i` (the marker line is retained) through the line before the
next marker, or the end of the document for the last marker. -/
theorem C3_markers :
    (∀ (s : List Char) (n : Nat),
      parseMarker s = some n ↔
        ∃ a b : List Char, s = "CHAPTER".data ++ a ++ b ∧ a ≠ [] ∧
          (∀ c ∈ a, c.isWhitespace = true) ∧ b ≠ [] ∧
          (∀ c ∈ b, c.isDigit = true) ∧ n = digitsToNat b)
    ∧ (∀ (text : String) (i n : Nat) (l : List Char),
        (splitNlL text.data)[i]? = some l →
        parseMarker (stripChars l) = some n →
        (⟨"Chapter " ++ toString n, (n : Int) - 1,
          ⟨stripChars (joinNlL (((splitNlL text.data).drop i).take
            (nextMarkerEnd text i - i)))⟩⟩ : Segment) ∈ detect_chapters text) := by
  refine ⟨parseMarker_iff, ?_⟩
  intro text i n l hget hparse
  have hx : text ≠ "" := by
    intro h
    subst h
    have e : splitNlL ("" : String).data = [[]] := rfl
    rw [e] at hget
    rcases i with _ | i
    · simp only [List.getElem?_cons_zero, Option.some.injEq] at hget
      subst hget
      exact absurd hparse (by simp [parseMarker, stripChars, dropTrail])
    · simp at hget
  have hmemM : (i, n) ∈ markersFrom 0 (splitNlL text.data) := by
    have := markersFrom_of_get (splitNlL text.data) 0 i l n hget hparse
    simpa using this
  rcases hm : markersFrom 0 (splitNlL text.data) with _ | ⟨⟨p, q⟩, rest⟩
  · rw [hm] at hmemM
    simp at hmemM
  · rw [detect_chapters_marker text hx p q rest hm]
    have hpw := markersFrom_pairwise (splitNlL text.data) 0
    rw [hm] at hpw
    have hfacts : ∀ r ∈ ((p, q) :: rest : List (Nat × Nat)),
        r.1 < (splitNlL text.data).length ∧
        ∃ l, (splitNlL text.data)[r.1]? = some l ∧
          parseMarker (stripChars l) = some r.2 :=
      fun r hr => markersFrom_facts text r (hm ▸ hr)
    have hmem2 : (i, n) ∈ ((p, q) :: rest : List (Nat × Nat)) := hm ▸ hmemM
    have hres := mem_buildChapters_of_marker (splitNlL text.data) ((p, q) :: rest)
      hpw hfacts i n hmem2
    apply List.mem_append_right
    unfold nextMarkerEnd
    rw [hm]
    exact hres

/-- Claim C3 as stated is false: its boundary rule requires `CHAPTER`
followed by one or more literal spaces, but the code's `\s+` also matches a
tab.  The line `"CHAPTER\t1"` admits no space-only decomposition, yet the
segmenter treats it as the marker of chapter 1. -/
theorem C3_counterexample :
    detect_chapters "CHAPTER\t1" = [⟨"Chapter 1", 0, "CHAPTER\t1"⟩]
    ∧ ¬ ∃ a b : List Char, "CHAPTER\t1".data = "CHAPTER".data ++ a ++ b ∧ a ≠ [] ∧
        (∀ c ∈ a, c = ' ') ∧ b ≠ [] ∧ (∀ c ∈ b, c.isDigit = true) := by
  constructor
  · decide
  · rintro ⟨a, b, hs, ha_ne, ha, _, _⟩
    rcases a with _ | ⟨w, a'⟩
    · exact absurd rfl ha_ne
    · have h7 : ("CHAPTER\t1".data)[7]? = some '\t' := by decide
      have h7' : ("CHAPTER".data ++ (w :: a') ++ b)[7]? = some w := by
        rw [List.append_assoc, List.getElem?_append_right (by decide)]
        rw [show "CHAPTER".data.length = 7 from by decide]
        simp
      rw [hs, h7'] at h7
      simp only [Option.some.injEq] at h7
      have := ha w (List.mem_cons_self _ _)
      rw [h7] at this
      exact absurd this (by decide)

/-- Witness for `C3_markers` at the spec's single-marker example. -/
theorem C3_markers_witness :
    (⟨"Chapter 1", 0, "CHAPTER 1\nbody"⟩ : Segment) ∈
      detect_chapters "pre\nCHAPTER 1\nbody" := by
  have h := C3_markers.2 "pre\nCHAPTER 1\nbody" 1 1 "CHAPTER 1".data
    (by decide) (by decide)
  rw [show (⟨"Chapter 1", 0, "CHAPTER 1\nbody"⟩ : Segment) =
    ⟨"Chapter " ++ toString 1, (1 : Int) - 1,
      ⟨stripChars (joinNlL (((splitNlL "pre\nCHAPTER 1\nbody".data).drop 1).take
        (nextMarkerEnd "pre\nCHAPTER 1\nbody" 1 - 1)))⟩⟩ from by decide]
  exact h

theorem runMethods_cons (f : String → Option String) (m : String) (rest : List String) :
    runMethods f (m :: rest) =
      if truthy (f m) then (f m, [m])
      else ((runMethods f rest).1, m :: (runMethods f rest).2) := rfl

theorem runMethods_spec (f : String → Option String) :
    ∀ l : List String,
      (∃ r, (runMethods f l).2 ++ r = l)
      ∧ (∀ m ∈ (runMethods f l).2.dropLast, truthy (f m) = false)
      ∧ (∀ s, (runMethods f l).1 = some s →
          ∃ m, (runMethods f l).2.getLast? = some m ∧ f m = some s ∧ s ≠ "")
      ∧ ((∀ m ∈ l, truthy (f m) = false) →
          (runMethods f l).1 = none ∧ (runMethods f l).2 = l) := by
  intro l
  induction l with
  | nil =>
    refine ⟨⟨[], rfl⟩, ?_, ?_, fun _ => ⟨rfl, rfl⟩⟩
    · intro m hm
      simp [runMethods] at hm
    · intro s hs
      simp [runMethods] at hs
  | cons m rest ih =>
    by_cases hm : truthy (f m) = true
    · rw [runMethods_cons, if_pos hm]
      refine ⟨⟨rest, rfl⟩, ?_, ?_, ?_⟩
      · intro x hx
        simp at hx
      · intro s hs
        have hs' : f m = some s := hs
        refine ⟨m, rfl, hs', ?_⟩
        rw [hs'] at hm
        simpa [truthy] using hm
      · intro hall
        exact absurd hm (by rw [hall m (List.mem_cons_self _ _)]; simp)
    · rw [runMethods_cons, if_neg hm]
      rw [Bool.not_eq_true] at hm
      obtain ⟨⟨r1, hr1⟩, h2, h3, h4⟩ := ih
      refine ⟨⟨r1, by rw [List.cons_append, hr1]⟩, ?_, ?_, ?_⟩
      · intro x hx
        rcases hrm : (runMethods f rest).2 with _ | ⟨y, ys⟩
        · rw [hrm] at hx
          simp at hx
        · rw [hrm, List.dropLast_cons₂] at hx
          rcases List.mem_cons.mp hx with h | h
          · rw [h]
            exact hm
          · exact h2 x (by rw [hrm]; exact h)
      · intro s hs
        obtain ⟨m', hlast, hfm', hne⟩ := h3 s hs
        refine ⟨m', ?_, hfm', hne⟩
        have hne2 : (runMethods f rest).2 ≠ [] := by
          intro hnil
          rw [hnil] at hlast
          simp at hlast
        rw [List.getLast?_cons, hlast]
        rfl
      · intro hall
        obtain ⟨ha, hb⟩ := h4 (fun x hx => hall x (List.mem_cons_of_mem m hx))
        exact ⟨ha, by rw [hb]⟩

theorem truthy_adapt_false (x : Option String) :
    truthy (adapt x) = false ↔ adapt x = none := by
  rcases x with _ | t
  · simp [adapt, truthy]
  · have hadapt : adapt (some t) =
        if stripChars t.data = [] then none else some ⟨stripChars t.data⟩ := rfl
    rw [hadapt]
    by_cases h : stripChars t.data = []
    · rw [if_pos h]
      simp [truthy]
    · rw [if_neg h]
      simp only [truthy, Bool.not_eq_false']
      constructor
      · intro hb
        have : (⟨stripChars t.data⟩ : String) = "" := by
          simpa using hb
        exact absurd (congrArg String.data this) h
      · intro hb
        exact Option.noConfusion hb

/-- Claim C4: the extraction orchestrator attempts the preferred backend
first when recognised, then the remaining backends in the fixed preference
order skipping any already attempted (the invoked backends form an initial
run of `attemptOrder`); every backend invoked before the last one failed;
a successful overall result is exactly the last invoked backend's non-empty
text; and when every backend fails or yields only whitespace the overall
result is failure (`none`). -/
theorem C4_orchestrator (raw : String → Option String) (pref : String) :
    (∃ r, (extract_text true (fun m => adapt (raw m)) pref).2 ++ r
        = attemptOrder pref)
    ∧ (∀ m ∈ (extract_text true (fun m => adapt (raw m)) pref).2.dropLast,
        adapt (raw m) = none)
    ∧ (∀ s, (extract_text true (fun m => adapt (raw m)) pref).1 = some s →
        ∃ m, (extract_text true (fun m => adapt (raw m)) pref).2.getLast? = some m
          ∧ adapt (raw m) = some s ∧ s ≠ "")
    ∧ ((∀ m ∈ attemptOrder pref, ∀ t, raw m = some t → stripChars t.data = []) →
        (extract_text true (fun m => adapt (raw m)) pref).1 = none) := by
  have hext : extract_text true (fun m => adapt (raw m)) pref
      = runMethods (fun m => adapt (raw m)) (attemptOrder pref) := rfl
  obtain ⟨h1, h2, h3, h4⟩ := runMethods_spec (fun m => adapt (raw m)) (attemptOrder pref)
  rw [hext]
  refine ⟨h1, ?_, h3, ?_⟩
  · intro m hm
    exact (truthy_adapt_false (raw m)).mp (h2 m hm)
  · intro hall
    refine (h4 ?_).1
    intro m hm
    apply (truthy_adapt_false (raw m)).mpr
    rcases hr : raw m with _ | t
    · rfl
    · have hstrip := hall m hm t hr
      have : adapt (some t) =
          if stripChars t.data = [] then none else some ⟨stripChars t.data⟩ := rfl
      rw [this, if_pos hstrip]

/-- Witness for `C4_orchestrator`: when every backend fails, the overall
result is failure. -/
theorem C4_orchestrator_witness :
    (extract_text true (fun m => adapt ((fun _ => (none : Option String)) m)) "auto").1
      = none := by
  exact (C4_orchestrator (fun _ => none) "auto").2.2.2
    (fun m _ t ht => Option.noConfusion ht)

/-- Claim C7: the layout writer is best-effort per segment — the returned
list is exactly the paths whose write succeeded (in segment order), and
writing a concatenation of segment batches equals writing each batch
independently, so one segment's failure never aborts the remaining
segments. -/
theorem C7_best_effort (ω : String → Bool) (baseDir docName : String) :
    (∀ chapters : List Segment,
      save_chapter_files ω baseDir docName chapters =
        (chapters.map (chapterFilePath baseDir docName)).filter ω)
    ∧ (∀ c1 c2 : List Segment,
      save_chapter_files ω baseDir docName (c1 ++ c2) =
        save_chapter_files ω baseDir docName c1
          ++ save_chapter_files ω baseDir docName c2) := by
  have hmain : ∀ chapters : List Segment,
      save_chapter_files ω baseDir docName chapters =
        (chapters.map (chapterFilePath baseDir docName)).filter ω := by
    intro chapters
    induction chapters with
    | nil => rfl
    | cons seg rest ih =>
      have estep : save_chapter_files ω baseDir docName (seg :: rest) =
          (if ω (chapterFilePath baseDir docName seg)
            then [chapterFilePath baseDir docName seg] else [])
          ++ save_chapter_files ω baseDir docName rest := rfl
      rw [estep, ih, List.map_cons, List.filter_cons]
      by_cases hw : ω (chapterFilePath baseDir docName seg) = true
      · rw [if_pos hw, hw]
        simp
      · rw [if_neg hw]
        rw [Bool.not_eq_true] at hw
        rw [hw]
        simp
  refine ⟨hmain, ?_⟩
  intro c1 c2
  rw [hmain, hmain, hmain, List.map_append, List.filter_append]

/-- Claim C10: with `save_to_output = false`, `process_pdf` attempts no file
write, performs no chapter detection, and leaves the `chapters`,
`saved_files` and `output_folder` fields empty / `none`, regardless of
extraction success and of the `split_chapters` flag. -/
theorem C10_frame (validOk : Bool) (raw : String → Option String) (ω : String → Bool)
    (outputDir pdfName : String) (cleanText splitChapters : Bool) :
    (process_pdf validOk raw ω outputDir pdfName cleanText false splitChapters).2 = []
    ∧ (process_pdf validOk raw ω outputDir pdfName
        cleanText false splitChapters).1.chapters = []
    ∧ (process_pdf validOk raw ω outputDir pdfName
        cleanText false splitChapters).1.saved_files = []
    ∧ (process_pdf validOk raw ω outputDir pdfName
        cleanText false splitChapters).1.output_folder = none := by
  unfold process_pdf
  rcases h : (extract_text validOk (fun m => adapt (raw m)) "auto").1 with _ | t
  · exact ⟨rfl, rfl, rfl, rfl⟩
  · exact ⟨rfl, rfl, rfl, rfl⟩

theorem char_le_iff_toNat (a b : Char) : a ≤ b ↔ a.toNat ≤ b.toNat := Iff.rfl

theorem char_eq_iff_toNat (a b : Char) : a = b ↔ a.toNat = b.toNat := by
  constructor
  · intro h
    rw [h]
  · intro h
    apply Char.ext
    apply UInt32.eq_of_toBitVec_eq
    apply BitVec.eq_of_toNat_eq
    exact h

theorem toNat_ofNat_valid (n : Nat) (h : n.isValidChar) : (Char.ofNat n).toNat = n := by
  rw [Char.ofNat, dif_pos h]
  rfl

theorem ws_iff_toNat (c : Char) : c.isWhitespace = true ↔
    (c.toNat = 32 ∨ c.toNat = 9 ∨ c.toNat = 13 ∨ c.toNat = 10) := by
  simp only [Char.isWhitespace, Bool.or_eq_true, decide_eq_true_eq]
  rw [char_eq_iff_toNat c ' ', char_eq_iff_toNat c '\t', char_eq_iff_toNat c '\r',
    char_eq_iff_toNat c '\n']
  rw [show (' ' : Char).toNat = 32 from rfl, show ('\t' : Char).toNat = 9 from rfl,
    show ('\r' : Char).toNat = 13 from rfl, show ('\n' : Char).toNat = 10 from rfl]
  tauto

theorem upper_iff_toNat (c : Char) : c.isUpper = true ↔
    (65 ≤ c.toNat ∧ c.toNat ≤ 90) := by
  simp only [Char.isUpper, Bool.and_eq_true, decide_eq_true_eq]
  exact Iff.rfl

theorem lower_iff_toNat (c : Char) : c.isLower = true ↔
    (97 ≤ c.toNat ∧ c.toNat ≤ 122) := by
  simp only [Char.isLower, Bool.and_eq_true, decide_eq_true_eq]
  exact Iff.rfl

theorem digit_iff_toNat (c : Char) : c.isDigit = true ↔
    (48 ≤ c.toNat ∧ c.toNat ≤ 57) := by
  simp only [Char.isDigit, Bool.and_eq_true, decide_eq_true_eq]
  exact Iff.rfl

theorem keep_iff_toNat (c : Char) : keepChar c = true ↔
    ((65 ≤ c.toNat ∧ c.toNat ≤ 90) ∨ (97 ≤ c.toNat ∧ c.toNat ≤ 122)
      ∨ (48 ≤ c.toNat ∧ c.toNat ≤ 57) ∨ c.toNat = 95
      ∨ (c.toNat = 32 ∨ c.toNat = 9 ∨ c.toNat = 13 ∨ c.toNat = 10)
      ∨ c.toNat = 45) := by
  simp only [keepChar, isWordChar, Char.isAlphanum, Char.isAlpha, Bool.or_eq_true,
    decide_eq_true_eq]
  rw [upper_iff_toNat, lower_iff_toNat, digit_iff_toNat, ws_iff_toNat,
    char_eq_iff_toNat c '_', char_eq_iff_toNat c '-']
  rw [show ('_' : Char).toNat = 95 from rfl, show ('-' : Char).toNat = 45 from rfl]
  tauto

theorem lowerChar_toNat_of_upper (c : Char) (h : 'A' ≤ c ∧ c ≤ 'Z') :
    (lowerChar c).toNat = c.toNat + 32 := by
  unfold lowerChar
  rw [if_pos h]
  apply toNat_ofNat_valid
  have h2 : c.toNat ≤ 90 := (char_le_iff_toNat c 'Z').mp h.2
  exact Or.inl (by omega)

theorem lowerChar_eq_self (c : Char) (h : ¬('A' ≤ c ∧ c ≤ 'Z')) :
    lowerChar c = c := by
  unfold lowerChar
  rw [if_neg h]

theorem lowerChar_ws (c : Char) : (lowerChar c).isWhitespace = c.isWhitespace := by
  by_cases h : 'A' ≤ c ∧ c ≤ 'Z'
  · have h1 := lowerChar_toNat_of_upper c h
    have hlo : 65 ≤ c.toNat := (char_le_iff_toNat 'A' c).mp h.1
    have hhi : c.toNat ≤ 90 := (char_le_iff_toNat c 'Z').mp h.2
    have e1 : c.isWhitespace = false := by
      rw [Bool.eq_false_iff, Ne, ws_iff_toNat]
      omega
    have e2 : (lowerChar c).isWhitespace = false := by
      rw [Bool.eq_false_iff, Ne, ws_iff_toNat, h1]
      omega
    rw [e1, e2]
  · rw [lowerChar_eq_self c h]

theorem lowerChar_keep (c : Char) : keepChar (lowerChar c) = keepChar c := by
  by_cases h : 'A' ≤ c ∧ c ≤ 'Z'
  · have h1 := lowerChar_toNat_of_upper c h
    have hlo : 65 ≤ c.toNat := (char_le_iff_toNat 'A' c).mp h.1
    have hhi : c.toNat ≤ 90 := (char_le_iff_toNat c 'Z').mp h.2
    have e1 : keepChar c = true := (keep_iff_toNat c).mpr (Or.inl ⟨hlo, hhi⟩)
    have e2 : keepChar (lowerChar c) = true :=
      (keep_iff_toNat (lowerChar c)).mpr (Or.inr (Or.inl (by omega)))
    rw [e1, e2]
  · rw [lowerChar_eq_self c h]

theorem ws_comp_lower : Char.isWhitespace ∘ lowerChar = Char.isWhitespace :=
  funext lowerChar_ws

theorem filter_keep_map_lower (l : List Char) :
    (l.map lowerChar).filter keepChar = (l.filter keepChar).map lowerChar := by
  rw [List.filter_map]
  congr 1
  apply List.filter_congr
  intro a _
  exact lowerChar_keep a

theorem stripChars_map_lower (l : List Char) :
    stripChars (l.map lowerChar) = (stripChars l).map lowerChar := by
  unfold stripChars dropTrail
  rw [List.dropWhile_map, ws_comp_lower, ← List.map_reverse, List.dropWhile_map,
    ws_comp_lower, ← List.map_reverse]

theorem wsRuns_map_lower (l : List Char) :
    wsRuns (l.map lowerChar) = (wsRuns l).map lowerChar := by
  match l with
  | [] => rfl
  | c :: rest =>
    rw [List.map_cons, wsRuns_cons, wsRuns_cons, lowerChar_ws]
    by_cases hw : c.isWhitespace = true
    · rw [hw]
      simp only [if_true]
      rw [List.dropWhile_map, ws_comp_lower,
        wsRuns_map_lower (rest.dropWhile Char.isWhitespace)]
      rfl
    · rw [Bool.not_eq_true] at hw
      rw [hw]
      simp only [Bool.false_eq_true, if_false]
      rw [wsRuns_map_lower rest]
      rfl
termination_by l.length
decreasing_by
  · have := (List.dropWhile_sublist (l := rest) Char.isWhitespace).length_le
    simp only [List.length_cons]
    omega
  · simp

/-- The slug described by the (amended) claim: lower-case the label, remove
characters outside word/space/hyphen, trim surrounding whitespace, then
replace whitespace runs with single underscores. -/
def slugSpecTrimmed (l : List Char) : List Char :=
  wsRuns (stripChars ((l.map lowerChar).filter keepChar))

/-- The slug exactly as the claim states it (without the trimming step the
code performs between removal and underscore replacement). -/
def slugSpecStated (l : List Char) : List Char :=
  wsRuns ((l.map lowerChar).filter keepChar)

theorem slugify_eq_spec_trimmed (l : List Char) :
    slugify l = slugSpecTrimmed l := by
  unfold slugify slugSpecTrimmed
  rw [filter_keep_map_lower, stripChars_map_lower, wsRuns_map_lower]

/-- Claim C6 (amended): the layout writer maps the introduction segment
(ordinal `-1`) to `baseDir/documentName/intro/introduction.txt` and a chapter
segment with ordinal `k ≥ 0` to
`baseDir/documentName/{k+1 zero-padded to two digits}/{slug(label)}.txt`,
where the slug lower-cases the label, removes characters outside
word/space/hyphen, trims surrounding whitespace, and replaces whitespace runs
with a single underscore; the path depends only on the segment's ordinal and
label, hence is deterministic across repeated calls. -/
theorem C6_layout (baseDir docName : String) (seg : Segment) :
    (seg.ordinal = -1 →
      chapterFilePath baseDir docName seg =
        baseDir ++ "/" ++ docName ++ "/intro/introduction.txt")
    ∧ (∀ k : Nat, seg.ordinal = (k : Int) →
      chapterFilePath baseDir docName seg =
        baseDir ++ "/" ++ docName ++ "/" ++ pad2 ((k : Int) + 1) ++ "/"
          ++ String.mk (slugify seg.label.data) ++ ".txt")
    ∧ (∀ l : List Char, slugify l = slugSpecTrimmed l)
    ∧ (∀ s1 s2 : Segment, s1.label = s2.label → s1.ordinal = s2.ordinal →
        chapterFilePath baseDir docName s1 = chapterFilePath baseDir docName s2) := by
  refine ⟨?_, ?_, slugify_eq_spec_trimmed, ?_⟩
  · intro h
    unfold chapterFilePath
    rw [if_pos h]
  · intro k h
    unfold chapterFilePath
    rw [if_neg (by rw [h]; omega), h]
  · intro s1 s2 hlab hord
    unfold chapterFilePath
    rw [hlab, hord]

/-- Claim C6 as stated is false: the claimed slug pipeline (lower-case,
remove, replace whitespace runs) omits the trimming step the code performs,
so a label with punctuation at the edge — here `"Chapter 1 !"`, whose
trailing space survives the removal of `'!'` — yields path component
`chapter_1` in the code but `chapter_1_` under the claim's description. -/
theorem C6_counterexample :
    chapterFilePath "output" "doc" ⟨"Chapter 1 !", 0, "x"⟩ ≠
      "output" ++ "/" ++ "doc" ++ "/" ++ pad2 (0 + 1) ++ "/"
        ++ String.mk (slugSpecStated "Chapter 1 !".data) ++ ".txt" := by
  decide

/-- Witness for `C6_layout` at the spec's slug example. -/
theorem C6_layout_witness :
    chapterFilePath "output" "doc" ⟨"Chapter 3: The Setup!", 2, "x"⟩ =
      "output/doc/03/chapter_3_the_setup.txt" := by
  have h := (C6_layout "output" "doc" ⟨"Chapter 3: The Setup!", 2, "x"⟩).2.1 2 rfl
  rw [h]
  decide
